import Mathlib

/-!
Verification of the diffstory word-diff / diff-parsing core.

Go strings are modelled as lists of characters (`Str`), machine integers as
`Nat`/`Int`, and fallible operations as `Except`.  Components whose Go source
is not part of the repository snapshot (the `difflib` word differ, the
`gitdiff` parser and the line pairer) are modelled from the specification, as
marked on each definition.  Recursive scans that consume a data-dependent
amount of input are written with an explicit fuel argument (always called with
fuel at least the input length, which is proved or supplied at the wrappers);
this keeps every definition executable by kernel reduction.
-/

set_option maxHeartbeats 1000000

namespace Diffstory

/-- A Go string, modelled as its list of characters. -/
abbrev Str := List Char

/-- Modelled from the spec: `Segment` (§3), the Word Differ output unit:
`Text` (substring of the reconstructed line) and `Changed`. -/
structure Segment where
  text : Str
  changed : Bool
deriving DecidableEq

/-- Concatenation of the `text` fields of a segment list, in order. -/
def segText (segs : List Segment) : Str :=
  (segs.map Segment.text).flatten

/-! ## Tokenizer (spec §4.2) -/

/-- First character of an identifier token: `[A-Za-z_]`. -/
def isIdentStart (c : Char) : Bool := c.isAlpha || c = '_'

/-- Later character of an identifier token: `[A-Za-z0-9_]`. -/
def isIdentChar (c : Char) : Bool := c.isAlphanum || c = '_'

/-- Operator-run characters: `+-*/=<>!&|^%`. -/
def isOpChar (c : Char) : Bool :=
  ['+', '-', '*', '/', '=', '<', '>', '!', '&', '|', '^', '%'].contains c

/-- Single-punctuation characters: `(){}[];,.`. -/
def isPunctChar (c : Char) : Bool :=
  ['(', ')', '\x7b', '\x7d', '[', ']', ';', ',', '.'].contains c

/-- Whitespace-run characters: space and tab. -/
def isWsChar (c : Char) : Bool := c = ' ' || c = '\t'

/-- Modelled from the spec: one step of the tokenizer (§4.2).  Classifies the
maximal prefix of `c :: cs` against the ordered categories identifier, number,
quoted string, operator run, single punctuation, whitespace run, falling back
to a single-character token; returns the token and the remaining input. -/
def nextToken (c : Char) (cs : List Char) : Str × Str :=
  if isIdentStart c then
    (c :: cs.takeWhile isIdentChar, cs.dropWhile isIdentChar)
  else if c.isDigit then
    match cs.dropWhile Char.isDigit with
    | '.' :: d :: ds2 =>
      if d.isDigit then
        (c :: cs.takeWhile Char.isDigit ++ '.' :: d :: ds2.takeWhile Char.isDigit,
         ds2.dropWhile Char.isDigit)
      else (c :: cs.takeWhile Char.isDigit, cs.dropWhile Char.isDigit)
    | _ => (c :: cs.takeWhile Char.isDigit, cs.dropWhile Char.isDigit)
  else if c = '"' || c = '\'' then
    -- a quoted-string token stops at the next matching quote; an unterminated
    -- quote falls back to a single-character token
    match cs.dropWhile (fun x => !(x = c)) with
    | _ :: rest => ((c :: cs.takeWhile (fun x => !(x = c))) ++ [c], rest)
    | [] => ([c], cs)
  else if isOpChar c then
    (c :: cs.takeWhile isOpChar, cs.dropWhile isOpChar)
  else if isPunctChar c then ([c], cs)
  else if isWsChar c then
    (c :: cs.takeWhile isWsChar, cs.dropWhile isWsChar)
  else ([c], cs)

/-- Modelled from the spec: the tokenizer loop (§4.2), with fuel.  Fuel at
least the input length is always sufficient since every step consumes at least
one character. -/
def tokenizeFuel : Nat → List Char → List Str
  | _, [] => []
  | 0, _ :: _ => []
  | fuel + 1, c :: cs =>
    let p := nextToken c cs
    p.1 :: tokenizeFuel fuel p.2

/-- Modelled from the spec: `Tokenize(line) -> []Token` (§4.2). -/
def tokenize (s : Str) : List Str := tokenizeFuel s.length s

theorem dropWhile_head_eq {c : Char} {cs rest : List Char} {y : Char}
    (h : cs.dropWhile (fun x => !(x = c)) = y :: rest) : y = c := by
  induction cs with
  | nil => simp at h
  | cons a as ih =>
    by_cases ha : a = c
    · rw [List.dropWhile_cons_of_neg (by simp [ha])] at h
      exact (List.cons.injEq _ _ _ _ ▸ h).1.symm ▸ ha
    · rw [List.dropWhile_cons_of_pos (by simp [ha])] at h
      exact ih h

/-- The token produced by `nextToken` is nonempty and, concatenated with the
remaining input, reproduces the input exactly. -/
theorem nextToken_spec (c : Char) (cs : List Char) :
    (nextToken c cs).1 ≠ [] ∧ (nextToken c cs).1 ++ (nextToken c cs).2 = c :: cs := by
  unfold nextToken
  split
  · exact ⟨by simp, by simp [List.takeWhile_append_dropWhile]⟩
  · split
    · split
      · next d ds2 heq =>
        split
        · refine ⟨by simp, ?_⟩
          have h1 : cs.takeWhile Char.isDigit ++ cs.dropWhile Char.isDigit = cs :=
            List.takeWhile_append_dropWhile _ _
          rw [heq] at h1
          have h2 : ds2.takeWhile Char.isDigit ++ ds2.dropWhile Char.isDigit = ds2 :=
            List.takeWhile_append_dropWhile _ _
          simp only [List.cons_append, List.append_assoc, List.cons.injEq, true_and]
          rw [h2]
          exact h1
        · refine ⟨by simp, ?_⟩
          simp [List.takeWhile_append_dropWhile]
      · refine ⟨by simp, ?_⟩
        simp [List.takeWhile_append_dropWhile]
    · split
      · split
        · next y rest heq =>
          refine ⟨by simp, ?_⟩
          have h1 : cs.takeWhile (fun x => !(x = c)) ++
              cs.dropWhile (fun x => !(x = c)) = cs :=
            List.takeWhile_append_dropWhile _ _
          have hy : y = c := dropWhile_head_eq heq
          rw [hy] at heq
          rw [heq] at h1
          simp only [List.append_assoc, List.cons_append, List.nil_append,
            List.singleton_append, List.cons.injEq, true_and]
          exact h1
        · exact ⟨by simp, by simp⟩
      · split
        · exact ⟨by simp, by simp [List.takeWhile_append_dropWhile]⟩
        · split
          · exact ⟨by simp, by simp⟩
          · split
            · exact ⟨by simp, by simp [List.takeWhile_append_dropWhile]⟩
            · exact ⟨by simp, by simp⟩

theorem nextToken_rest_lt (c : Char) (cs : List Char) :
    (nextToken c cs).2.length < (c :: cs).length := by
  have h := nextToken_spec c cs
  have := congrArg List.length h.2
  simp only [List.length_append] at this
  have hne : 0 < (nextToken c cs).1.length := List.length_pos.mpr h.1
  omega

/-- Tokenizer round trip: with sufficient fuel the tokens concatenate back to
the input (spec §4.2, totality / reconstruction). -/
theorem tokenizeFuel_flatten :
    ∀ (n : Nat) (xs : List Char), xs.length ≤ n → (tokenizeFuel n xs).flatten = xs := by
  intro n
  induction n with
  | zero =>
    intro xs h
    have : xs = [] := List.length_eq_zero.mp (Nat.le_zero.mp h)
    subst this; rfl
  | succ m ih =>
    intro xs h
    cases xs with
    | nil => rfl
    | cons c cs =>
      have hs := nextToken_spec c cs
      have hlt := nextToken_rest_lt c cs
      simp only [tokenizeFuel, List.flatten_cons]
      rw [ih (nextToken c cs).2 (by simp at hlt h; omega)]
      exact hs.2

/-- Tokenizer round trip at the standard fuel. -/
theorem tokenize_flatten (s : Str) : (tokenize s).flatten = s :=
  tokenizeFuel_flatten s.length s (Nat.le_refl _)

/-! ## Sequence Matcher (spec §4.3) -/

/-- Modelled from the spec: `MatchBlock{AStart, BStart, Size}` (§4.3). -/
structure MatchBlock where
  a : Nat
  b : Nat
  size : Nat
deriving DecidableEq

/-- Length of the longest run of pairwise-equal tokens of `xs` and `ys`
starting at positions `i`/`j`, stopping at the range ends `ahi`/`bhi`;
fueled (fuel `ahi - i` is exact, since the scan stops at `ahi`). -/
def matchLenFuel (xs ys : List Str) (ahi bhi : Nat) : Nat → Nat → Nat → Nat
  | 0, _, _ => 0
  | fuel + 1, i, j =>
    match xs.get? i, ys.get? j with
    | some x, some y =>
      if i < ahi ∧ j < bhi ∧ x = y then matchLenFuel xs ys ahi bhi fuel (i + 1) (j + 1) + 1
      else 0
    | _, _ => 0

/-- The in-range common-run length at `i`/`j`. -/
def matchLen (xs ys : List Str) (ahi bhi i j : Nat) : Nat :=
  matchLenFuel xs ys ahi bhi (ahi - i) i j

/-- All candidate blocks in the given ranges, in increasing `a`- then
`b`-position order. -/
def candidates (xs ys : List Str) (alo ahi blo bhi : Nat) : List (Nat × Nat × Nat) :=
  (List.range' alo (ahi - alo)).flatMap fun i =>
    (List.range' blo (bhi - blo)).map fun j => (i, j, matchLen xs ys ahi bhi i j)

/-- Modelled from the spec: the single longest common contiguous block within
the given ranges, ties broken by earliest starting position in `a`, then in
`b` (§4.3). -/
def findBest (xs ys : List Str) (alo ahi blo bhi : Nat) : Nat × Nat × Nat :=
  (candidates xs ys alo ahi blo bhi).foldl
    (fun best c => if best.2.2 < c.2.2 then c else best) (alo, blo, 0)

/-- Modelled from the spec: Ratcliff/Obershelp-style block decomposition —
find the longest common block, then recurse to its left and right (§4.3);
fueled, the wrapper supplies sufficient fuel. -/
def matchBlocksFuel (xs ys : List Str) : Nat → Nat → Nat → Nat → Nat → List MatchBlock
  | 0, _, _, _, _ => []
  | fuel + 1, alo, ahi, blo, bhi =>
    let c := findBest xs ys alo ahi blo bhi
    if 0 < c.2.2 then
      matchBlocksFuel xs ys fuel alo c.1 blo c.2.1 ++
        ⟨c.1, c.2.1, c.2.2⟩ :: matchBlocksFuel xs ys fuel (c.1 + c.2.2) ahi (c.2.1 + c.2.2) bhi
    else []

/-- Modelled from the spec: the matcher's full block list, terminated by the
zero-size sentinel block at the end of both sequences (§4.3 / design doc:
segment construction walks the blocks including the final sentinel). -/
def matchingBlocks (xs ys : List Str) : List MatchBlock :=
  matchBlocksFuel xs ys (xs.length + ys.length + 1) 0 xs.length 0 ys.length ++
    [⟨xs.length, ys.length, 0⟩]

/-- Total number of tokens covered by matching blocks. -/
def matchedCount (xs ys : List Str) : Nat :=
  ((matchingBlocks xs ys).map MatchBlock.size).sum

/-- Modelled from the spec: similarity `ratio = 2 * matched / (len a + len b)`
(§4.3), as an exact rational; for two empty sequences the spec fixes
`ratio = 1` iff the sequences are identical, so the ratio is 1 there. -/
def ratio (xs ys : List Str) : ℚ :=
  if xs.length + ys.length = 0 then 1
  else (2 * matchedCount xs ys : ℚ) / ((xs.length + ys.length : Nat) : ℚ)

theorem matchLenFuel_le_left (xs ys : List Str) (ahi bhi : Nat) :
    ∀ fuel i j, matchLenFuel xs ys ahi bhi fuel i j ≤ ahi - i := by
  intro fuel
  induction fuel with
  | zero => intro i j; simp [matchLenFuel]
  | succ m ih =>
    intro i j
    unfold matchLenFuel
    split
    · split
      · next h =>
        have := ih (i + 1) (j + 1)
        omega
      · omega
    · omega

theorem matchLenFuel_le_right (xs ys : List Str) (ahi bhi : Nat) :
    ∀ fuel i j, matchLenFuel xs ys ahi bhi fuel i j ≤ bhi - j := by
  intro fuel
  induction fuel with
  | zero => intro i j; simp [matchLenFuel]
  | succ m ih =>
    intro i j
    unfold matchLenFuel
    split
    · split
      · next h =>
        have := ih (i + 1) (j + 1)
        omega
      · omega
    · omega

theorem mem_candidates {xs ys : List Str} {alo ahi blo bhi : Nat}
    {c : Nat × Nat × Nat} (h : c ∈ candidates xs ys alo ahi blo bhi) :
    alo ≤ c.1 ∧ c.1 < ahi ∧ blo ≤ c.2.1 ∧ c.2.1 < bhi ∧
      c.2.2 ≤ ahi - c.1 ∧ c.2.2 ≤ bhi - c.2.1 := by
  simp only [candidates, List.mem_flatMap, List.mem_map] at h
  obtain ⟨i, hi, j, hj, rfl⟩ := h
  rw [List.mem_range'_1] at hi hj
  dsimp only
  refine ⟨hi.1, by omega, hj.1, by omega, ?_, ?_⟩
  · exact matchLenFuel_le_left xs ys ahi bhi _ i j
  · exact matchLenFuel_le_right xs ys ahi bhi _ i j

theorem foldl_best_mem (l : List (Nat × Nat × Nat)) :
    ∀ init : Nat × Nat × Nat,
      l.foldl (fun best c => if best.2.2 < c.2.2 then c else best) init = init ∨
      l.foldl (fun best c => if best.2.2 < c.2.2 then c else best) init ∈ l := by
  induction l with
  | nil => intro init; left; rfl
  | cons c rest ih =>
    intro init
    simp only [List.foldl_cons]
    rcases ih (if init.2.2 < c.2.2 then c else init) with h | h
    · rw [h]
      split
      · right; exact List.mem_cons_self _ _
      · left; rfl
    · right; exact List.mem_cons_of_mem _ h

theorem findBest_bounds {xs ys : List Str} {alo ahi blo bhi : Nat}
    (h : 0 < (findBest xs ys alo ahi blo bhi).2.2) :
    alo ≤ (findBest xs ys alo ahi blo bhi).1 ∧
      (findBest xs ys alo ahi blo bhi).1 + (findBest xs ys alo ahi blo bhi).2.2 ≤ ahi ∧
      blo ≤ (findBest xs ys alo ahi blo bhi).2.1 ∧
      (findBest xs ys alo ahi blo bhi).2.1 + (findBest xs ys alo ahi blo bhi).2.2 ≤ bhi := by
  rcases foldl_best_mem (candidates xs ys alo ahi blo bhi) (alo, blo, 0) with hc | hc
  · rw [findBest, hc] at h
    simp at h
  · have hc2 : findBest xs ys alo ahi blo bhi ∈ candidates xs ys alo ahi blo bhi := hc
    have := mem_candidates hc2
    omega

/-- The start positions of a block list on one side (`proj` is `.a` or `.b`)
lie within `[lo, hi]` in increasing, non-overlapping order. -/
def chainSide (proj : MatchBlock → Nat) : Nat → Nat → List MatchBlock → Prop
  | lo, hi, [] => lo ≤ hi
  | lo, hi, mb :: rest =>
    lo ≤ proj mb ∧ proj mb + mb.size ≤ hi ∧ chainSide proj (proj mb + mb.size) hi rest

theorem chainSide_le {proj : MatchBlock → Nat} :
    ∀ {bs : List MatchBlock} {lo hi : Nat}, chainSide proj lo hi bs → lo ≤ hi := by
  intro bs
  cases bs with
  | nil => intro lo hi h; exact h
  | cons mb rest =>
    intro lo hi h
    exact Nat.le_trans h.1 (Nat.le_trans (Nat.le_add_right _ _) h.2.1)

theorem chainSide_mono (proj : MatchBlock → Nat) :
    ∀ (bs : List MatchBlock) {lo lo2 hi : Nat}, lo2 ≤ lo → chainSide proj lo hi bs →
      chainSide proj lo2 hi bs := by
  intro bs
  cases bs with
  | nil => intro lo lo2 hi hle h; exact Nat.le_trans hle h
  | cons mb rest =>
    intro lo lo2 hi hle h
    exact ⟨Nat.le_trans hle h.1, h.2.1, h.2.2⟩

theorem chainSide_append (proj : MatchBlock → Nat) :
    ∀ (bs1 : List MatchBlock) {bs2 : List MatchBlock} {lo mid hi : Nat},
      chainSide proj lo mid bs1 → chainSide proj mid hi bs2 →
      chainSide proj lo hi (bs1 ++ bs2) := by
  intro bs1
  induction bs1 with
  | nil =>
    intro bs2 lo mid hi h1 h2
    exact chainSide_mono proj bs2 h1 h2
  | cons mb rest ih =>
    intro bs2 lo mid hi h1 h2
    exact ⟨h1.1, chainSide_le (ih h1.2.2 h2), ih h1.2.2 h2⟩

theorem matchBlocks_chainA (xs ys : List Str) :
    ∀ (fuel alo ahi blo bhi : Nat), alo ≤ ahi →
      chainSide MatchBlock.a alo ahi (matchBlocksFuel xs ys fuel alo ahi blo bhi) := by
  intro fuel
  induction fuel with
  | zero => intro alo ahi blo bhi h; exact h
  | succ m ih =>
    intro alo ahi blo bhi h
    unfold matchBlocksFuel
    dsimp only
    split
    · next hk =>
      have hb := findBest_bounds hk
      refine chainSide_append _ _ (ih alo _ blo _ hb.1) ?_
      exact ⟨Nat.le_refl _, hb.2.1, ih _ ahi _ bhi hb.2.1⟩
    · exact h

theorem matchBlocks_chainB (xs ys : List Str) :
    ∀ (fuel alo ahi blo bhi : Nat), blo ≤ bhi →
      chainSide MatchBlock.b blo bhi (matchBlocksFuel xs ys fuel alo ahi blo bhi) := by
  intro fuel
  induction fuel with
  | zero => intro alo ahi blo bhi h; exact h
  | succ m ih =>
    intro alo ahi blo bhi h
    unfold matchBlocksFuel
    dsimp only
    split
    · next hk =>
      have hb := findBest_bounds hk
      refine chainSide_append _ _ (ih alo _ blo _ hb.2.2.1) ?_
      exact ⟨Nat.le_refl _, hb.2.2.2, ih _ ahi _ bhi hb.2.2.2⟩
    · exact h

/-! ## Word Differ (spec §4.4) -/

/-- Modelled from the spec: segment construction for one side of the diff
(§4.4 / design doc `buildSegments`): for each block, the gap of tokens before
it becomes a `Changed=true` segment and the block itself a `Changed=false`
segment; the running index walks the token list (`proj` selects the side's
start position). -/
def buildSide (toks : List Str) (proj : MatchBlock → Nat) :
    Nat → List MatchBlock → List Segment
  | _, [] => []
  | idx, mb :: rest =>
    (if idx < proj mb then
      [⟨((toks.drop idx).take (proj mb - idx)).flatten, true⟩] else []) ++
    (if 0 < mb.size then
      [⟨((toks.drop (proj mb)).take mb.size).flatten, false⟩] else []) ++
    buildSide toks proj (proj mb + mb.size) rest

/-- Modelled from the spec: coalesce adjacent segments with the same `Changed`
flag into one segment (§4.4). -/
def mergeInto (cur : Segment) : List Segment → List Segment
  | [] => [cur]
  | s :: rest =>
    if cur.changed = s.changed then mergeInto ⟨cur.text ++ s.text, cur.changed⟩ rest
    else cur :: mergeInto s rest

/-- Modelled from the spec: segment coalescing entry point (§4.4). -/
def mergeSegments : List Segment → List Segment
  | [] => []
  | s :: rest => mergeInto s rest

/-- Modelled from the spec: the Word Differ contract
`Diff(old, new) -> (oldSegments, newSegments)` (§4.4): identity fast path;
otherwise tokenize both sides, match blocks, and either degrade both sides to
one fully changed segment when the similarity ratio is below the 0.4
threshold, or build and coalesce per-side segments from the match blocks. -/
def Differ.Diff (old new : Str) : List Segment × List Segment :=
  if old = new then ([⟨old, false⟩], [⟨old, false⟩])
  else if ratio (tokenize old) (tokenize new) < 2 / 5 then
    ([⟨old, true⟩], [⟨new, true⟩])
  else
    (mergeSegments (buildSide (tokenize old) MatchBlock.a 0
        (matchingBlocks (tokenize old) (tokenize new))),
     mergeSegments (buildSide (tokenize new) MatchBlock.b 0
        (matchingBlocks (tokenize old) (tokenize new))))

theorem segText_nil : segText [] = [] := rfl

theorem segText_cons (s : Segment) (l : List Segment) :
    segText (s :: l) = s.text ++ segText l := by
  simp [segText]

theorem segText_append (l1 l2 : List Segment) :
    segText (l1 ++ l2) = segText l1 ++ segText l2 := by
  simp [segText]

theorem flatten_take_drop (toks : List Str) {i j : Nat} (h : i ≤ j) :
    ((toks.drop i).take (j - i)).flatten ++ (toks.drop j).flatten =
      (toks.drop i).flatten := by
  rw [← List.flatten_append]
  congr 1
  have hdrop : toks.drop j = (toks.drop i).drop (j - i) := by
    rw [List.drop_drop]
    congr 1
    omega
  rw [hdrop, List.take_append_drop]

theorem buildSide_segText (toks : List Str) (proj : MatchBlock → Nat)
    (sent : MatchBlock) (hs1 : proj sent = toks.length) (hs2 : sent.size = 0) :
    ∀ (bs : List MatchBlock) (idx : Nat), chainSide proj idx toks.length bs →
      segText (buildSide toks proj idx (bs ++ [sent])) = (toks.drop idx).flatten := by
  intro bs
  induction bs with
  | nil =>
    intro idx h
    simp only [List.nil_append, buildSide, hs1, hs2, Nat.lt_irrefl, if_false]
    rw [segText_append]
    by_cases hlt : idx < toks.length
    · simp only [if_pos hlt]
      have : (toks.drop idx).take (toks.length - idx) = toks.drop idx := by
        apply List.take_of_length_le
        rw [List.length_drop]
      rw [this]
      simp [segText, buildSide]
    · have hidx : idx = toks.length := Nat.le_antisymm h (Nat.le_of_not_lt hlt)
      subst hidx
      simp [segText, buildSide, List.drop_length]
  | cons mb rest ih =>
    intro idx h
    obtain ⟨h1, h2, h3⟩ := h
    simp only [List.cons_append, buildSide, List.append_eq]
    rw [segText_append, segText_append, ih _ h3]
    have hA : idx ≤ proj mb := h1
    have hE : proj mb ≤ proj mb + mb.size := Nat.le_add_right _ _
    have gap : segText (if idx < proj mb then
        [⟨((toks.drop idx).take (proj mb - idx)).flatten, true⟩] else []) =
        ((toks.drop idx).take (proj mb - idx)).flatten := by
      by_cases hlt : idx < proj mb
      · simp [segText, hlt]
      · have : idx = proj mb := Nat.le_antisymm hA (Nat.le_of_not_lt hlt)
        simp [segText, hlt, this]
    have blk : segText (if 0 < mb.size then
        [⟨((toks.drop (proj mb)).take mb.size).flatten, false⟩] else []) =
        ((toks.drop (proj mb)).take (proj mb + mb.size - proj mb)).flatten := by
      by_cases hsz : 0 < mb.size
      · simp [segText, hsz, Nat.add_sub_cancel_left]
      · have : mb.size = 0 := Nat.eq_zero_of_not_pos hsz
        simp [segText, hsz, this]
    rw [gap, blk, List.append_assoc, flatten_take_drop toks hE, flatten_take_drop toks hA]

theorem mergeInto_segText :
    ∀ (l : List Segment) (cur : Segment),
      segText (mergeInto cur l) = cur.text ++ segText l := by
  intro l
  induction l with
  | nil => intro cur; simp [mergeInto, segText]
  | cons s rest ih =>
    intro cur
    unfold mergeInto
    split
    · rw [ih]
      simp [segText_cons, List.append_assoc]
    · rw [segText_cons, ih, segText_cons]

theorem mergeSegments_segText (l : List Segment) :
    segText (mergeSegments l) = segText l := by
  cases l with
  | nil => rfl
  | cons s rest => rw [mergeSegments, mergeInto_segText, segText_cons]

theorem matchLenFuel_self (xs : List Str) :
    ∀ (fuel i : Nat),
      matchLenFuel xs xs xs.length xs.length fuel i i = min fuel (xs.length - i) := by
  intro fuel
  induction fuel with
  | zero => intro i; simp [matchLenFuel]
  | succ m ih =>
    intro i
    unfold matchLenFuel
    by_cases hi : i < xs.length
    · have hget : xs.get? i = some (xs.get ⟨i, hi⟩) := List.get?_eq_get hi
      rw [hget]
      dsimp only
      rw [if_pos ⟨hi, hi, rfl⟩, ih (i + 1)]
      omega
    · have hget : xs.get? i = none := List.get?_eq_none.mpr (Nat.le_of_not_lt hi)
      rw [hget]
      dsimp only
      omega

theorem matchBlocksFuel_empty_range (xs ys : List Str) :
    ∀ (fuel alo blo bhi : Nat), matchBlocksFuel xs ys fuel alo alo blo bhi = [] := by
  intro fuel alo blo bhi
  cases fuel with
  | zero => rfl
  | succ m =>
    unfold matchBlocksFuel
    have hc : candidates xs ys alo alo blo bhi = [] := by
      simp [candidates]
    have hf : findBest xs ys alo alo blo bhi = (alo, blo, 0) := by
      rw [findBest, hc]
      rfl
    simp [hf]

theorem foldl_best_stable (l : List (Nat × Nat × Nat)) :
    ∀ init : Nat × Nat × Nat, (∀ c ∈ l, c.2.2 ≤ init.2.2) →
      l.foldl (fun best c => if best.2.2 < c.2.2 then c else best) init = init := by
  induction l with
  | nil => intro init _; rfl
  | cons c rest ih =>
    intro init h
    simp only [List.foldl_cons]
    have hc : ¬init.2.2 < c.2.2 := Nat.not_lt.mpr (h c (List.mem_cons_self _ _))
    rw [if_neg hc]
    exact ih init fun d hd => h d (List.mem_cons_of_mem _ hd)

theorem findBest_self (xs : List Str) (h : 0 < xs.length) :
    findBest xs xs 0 xs.length 0 xs.length = (0, 0, xs.length) := by
  have hml : matchLen xs xs xs.length xs.length 0 0 = xs.length := by
    rw [matchLen, matchLenFuel_self]
    omega
  obtain ⟨n, hn⟩ : ∃ n, xs.length = n + 1 := ⟨xs.length - 1, by omega⟩
  have hrange : List.range' 0 (xs.length - 0) = 0 :: List.range' 1 n := by
    rw [Nat.sub_zero, hn, List.range'_succ]
  have hcand : candidates xs xs 0 xs.length 0 xs.length =
      ((List.range' 0 (xs.length - 0)).map
        (fun j => (0, j, matchLen xs xs xs.length xs.length 0 j))) ++
      ((List.range' 1 n).flatMap fun i =>
        (List.range' 0 (xs.length - 0)).map
          (fun j => (i, j, matchLen xs xs xs.length xs.length i j))) := by
    rw [candidates, hrange]
    rfl
  have hcand2 : ∃ rest, candidates xs xs 0 xs.length 0 xs.length =
      (0, 0, xs.length) :: rest := by
    rw [hcand, hrange]
    exact ⟨_, by rw [List.map_cons, hml]; rfl⟩
  obtain ⟨rest, hrest⟩ := hcand2
  rw [findBest, hrest]
  simp only [List.foldl_cons, if_pos h]
  apply foldl_best_stable
  intro c hc
  have hmem : c ∈ candidates xs xs 0 xs.length 0 xs.length := by
    rw [hrest]; exact List.mem_cons_of_mem _ hc
  have := mem_candidates hmem
  show c.2.2 ≤ xs.length
  omega

theorem matchingBlocks_self (xs : List Str) (h : 0 < xs.length) :
    matchingBlocks xs xs = [⟨0, 0, xs.length⟩, ⟨xs.length, xs.length, 0⟩] := by
  rw [matchingBlocks]
  obtain ⟨m, hm⟩ : ∃ m, xs.length + xs.length + 1 = m + 1 := ⟨_, rfl⟩
  rw [hm]
  unfold matchBlocksFuel
  rw [findBest_self xs h]
  simp only [if_pos h, Nat.zero_add]
  rw [matchBlocksFuel_empty_range, matchBlocksFuel_empty_range]
  rfl

theorem ratio_self (xs : List Str) : ratio xs xs = 1 := by
  by_cases h : xs.length = 0
  · rw [ratio, if_pos (by omega)]
  · have hpos : 0 < xs.length := Nat.pos_of_ne_zero h
    rw [ratio, if_neg (by omega)]
    have hmc : matchedCount xs xs = xs.length := by
      rw [matchedCount, matchingBlocks_self xs hpos]
      simp
    rw [hmc]
    have hnz : ((xs.length + xs.length : Nat) : ℚ) ≠ 0 :=
      Nat.cast_ne_zero.mpr (by omega)
    rw [div_eq_one_iff_eq hnz]
    push_cast
    ring

/-- C1: for every pair of input strings `old` and `new`, the Word Differ's
`Diff(old, new)` returns segment sequences whose `Text` fields concatenate,
in order, to exactly `old` (for `oldSegments`) and `new` (for `newSegments`),
on every path: the identity fast path, the ratio-below-threshold degraded
path, and the segment-building path. -/
theorem wordDiffer_round_trip (old new : Str) :
    segText (Differ.Diff old new).1 = old ∧ segText (Differ.Diff old new).2 = new := by
  unfold Differ.Diff
  by_cases h : old = new
  · subst h
    simp [segText]
  · rw [if_neg h]
    by_cases hr : ratio (tokenize old) (tokenize new) < 2 / 5
    · rw [if_pos hr]
      simp [segText]
    · rw [if_neg hr]
      constructor
      · show segText (mergeSegments (buildSide (tokenize old) MatchBlock.a 0
          (matchingBlocks (tokenize old) (tokenize new)))) = old
        rw [mergeSegments_segText, matchingBlocks,
          buildSide_segText (tokenize old) MatchBlock.a _ rfl rfl _ 0
            (matchBlocks_chainA _ _ _ 0 _ 0 _ (Nat.zero_le _)),
          List.drop_zero, tokenize_flatten]
      · show segText (mergeSegments (buildSide (tokenize new) MatchBlock.b 0
          (matchingBlocks (tokenize old) (tokenize new)))) = new
        rw [mergeSegments_segText, matchingBlocks,
          buildSide_segText (tokenize new) MatchBlock.b _ rfl rfl _ 0
            (matchBlocks_chainB _ _ _ 0 _ 0 _ (Nat.zero_le _)),
          List.drop_zero, tokenize_flatten]

/-- C7: for identical inputs the Word Differ takes the fast path: `Diff(s, s)`
returns exactly one segment per side, with `Changed = false` and
`Text = s`, for every string `s`. -/
theorem wordDiffer_fast_path (s : Str) :
    Differ.Diff s s = ([⟨s, false⟩], [⟨s, false⟩]) := by
  unfold Differ.Diff
  rw [if_pos rfl]

/-- C2: whenever the tokenized forms of `old` and `new` have similarity ratio
strictly below the 0.4 threshold, the Word Differ degrades both sides to a
single fully changed segment carrying the whole input string of that side (in
particular, two strings sharing no tokens have ratio 0 and degrade this
way). -/
theorem wordDiffer_below_threshold (old new : Str)
    (h : ratio (tokenize old) (tokenize new) < 2 / 5) :
    Differ.Diff old new = ([⟨old, true⟩], [⟨new, true⟩]) := by
  have hne : old ≠ new := by
    intro he
    subst he
    rw [ratio_self] at h
    norm_num at h
  unfold Differ.Diff
  rw [if_neg hne, if_pos h]

/-! ## Diff domain types (src/diffview.go) -/

/-- `LineType` from `diffview.go`: `LineContext`, `LineAdded`, `LineDeleted`. -/
inductive LineType where
  | context
  | added
  | deleted
deriving DecidableEq

/-- `Line` from `diffview.go`: a single line within a hunk. -/
structure Line where
  type : LineType
  content : Str
  oldLineNum : Nat
  newLineNum : Nat
  noNewline : Bool
deriving DecidableEq

instance : Inhabited Line := ⟨⟨LineType.context, [], 0, 0, false⟩⟩

/-! ## Line Pairer (spec §4.5) -/

/-- Modelled from the spec: the Line Pairer (§4.5), with fuel (fuel at least
the list length is always sufficient).  Scans the hunk's line list from
position `idx`; a maximal run of consecutive Deleted lines immediately
followed by a run of consecutive Added lines yields the index pairs (i-th
deletion with i-th addition, for `i` up to the shorter run length); every
other index — context lines, the excess of the longer run, and lone
additions/deletions — is reported unpaired. -/
def pairLinesFuel : Nat → Nat → List Line → List (Nat × Nat) × List Nat
  | _, _, [] => ([], [])
  | 0, _, _ :: _ => ([], [])
  | fuel + 1, idx, l :: rest =>
    if l.type = LineType.deleted then
      let dels := l :: rest.takeWhile (fun x => x.type = LineType.deleted)
      let afterDels := rest.dropWhile (fun x => x.type = LineType.deleted)
      let adds := afterDels.takeWhile (fun x => x.type = LineType.added)
      let afterAdds := afterDels.dropWhile (fun x => x.type = LineType.added)
      let k := min dels.length adds.length
      let next := pairLinesFuel fuel (idx + dels.length + adds.length) afterAdds
      ((List.range k).map (fun i => (idx + i, idx + dels.length + i)) ++ next.1,
       ((List.range (dels.length - k)).map (fun i => idx + k + i) ++
         (List.range (adds.length - k)).map (fun i => idx + dels.length + k + i)) ++
         next.2)
    else
      let next := pairLinesFuel fuel (idx + 1) rest
      (next.1, idx :: next.2)

/-- Modelled from the spec: the Line Pairer entry point (§4.5): the ordered
list of (deleted index, added index) pairs eligible for word-diffing, and the
list of line indices not covered by any pair. -/
def pairLines (lines : List Line) : List (Nat × Nat) × List Nat :=
  pairLinesFuel lines.length 0 lines

/-- Modelled from the spec: the Render Pipeline invokes the Word Differ
exactly once per pair produced by the Line Pairer, on the pair's deleted and
added line contents, and never for unpaired lines (§4.6). -/
def wordDiffCalls (lines : List Line) : List (Str × Str) :=
  (pairLines lines).1.map fun p =>
    ((lines.getD p.1 default).content, (lines.getD p.2 default).content)

theorem takeWhile_seam (p : Line → Bool) :
    ∀ (xs : List Line) (ys : List Line),
      ((∃ x ∈ xs, p x = false) ∨ (∀ z, ys.head? = some z → p z = false)) →
      (xs ++ ys).takeWhile p = xs.takeWhile p ∧
        (xs ++ ys).dropWhile p = xs.dropWhile p ++ ys := by
  intro xs
  induction xs with
  | nil =>
    intro ys h
    rcases h with ⟨x, hx, _⟩ | h
    · exact absurd hx (List.not_mem_nil x)
    · cases ys with
      | nil => exact ⟨rfl, rfl⟩
      | cons z t =>
        have hz : p z = false := h z rfl
        simp [List.takeWhile_cons, List.dropWhile_cons, hz]
  | cons x xs ih =>
    intro ys h
    by_cases hx : p x = true
    · simp only [List.cons_append, List.takeWhile_cons, List.dropWhile_cons, hx,
        if_true, List.cons_append]
      have h2 : (∃ y ∈ xs, p y = false) ∨ (∀ z, ys.head? = some z → p z = false) := by
        rcases h with ⟨y, hy, hpy⟩ | h
        · rcases List.mem_cons.mp hy with rfl | hy2
          · rw [hx] at hpy; exact absurd hpy (by simp)
          · exact Or.inl ⟨y, hy2, hpy⟩
        · exact Or.inr h
      obtain ⟨h3, h4⟩ := ih ys h2
      exact ⟨by rw [h3], by rw [h4]⟩
    · have hx2 : p x = false := by
        cases hp : p x
        · rfl
        · exact absurd hp hx
      simp [List.takeWhile_cons, List.dropWhile_cons, hx2]

theorem pairLinesFuel_congr :
    ∀ (fuel fuel2 idx : Nat) (xs : List Line), xs.length ≤ fuel → xs.length ≤ fuel2 →
      pairLinesFuel fuel idx xs = pairLinesFuel fuel2 idx xs := by
  intro fuel
  induction fuel with
  | zero =>
    intro fuel2 idx xs h _
    have : xs = [] := List.length_eq_zero.mp (Nat.le_zero.mp h)
    subst this
    cases fuel2 <;> rfl
  | succ m ih =>
    intro fuel2 idx xs h h2
    cases xs with
    | nil => cases fuel2 <;> rfl
    | cons l rest =>
      obtain ⟨m2, rfl⟩ : ∃ m2, fuel2 = m2 + 1 := by
        cases fuel2
        · simp at h2
        · exact ⟨_, rfl⟩
      show pairLinesFuel (m + 1) idx (l :: rest) = pairLinesFuel (m2 + 1) idx (l :: rest)
      unfold pairLinesFuel
      by_cases hl : l.type = LineType.deleted
      · simp only [if_pos hl]
        have hlen : (rest.dropWhile (fun x => x.type = LineType.deleted)).length ≤
            rest.length := (List.dropWhile_sublist _).length_le
        have hlen2 : ((rest.dropWhile (fun x => x.type = LineType.deleted)).dropWhile
            (fun x => x.type = LineType.added)).length ≤ rest.length :=
          Nat.le_trans ((List.dropWhile_sublist _).length_le) hlen
        have hrec := ih m2 (idx +
            (l :: rest.takeWhile (fun x => x.type = LineType.deleted)).length +
            ((rest.dropWhile (fun x => x.type = LineType.deleted)).takeWhile
              (fun x => x.type = LineType.added)).length)
            ((rest.dropWhile (fun x => x.type = LineType.deleted)).dropWhile
              (fun x => x.type = LineType.added))
            (by simp at h; omega) (by simp at h2; omega)
        rw [hrec]
      · simp only [if_neg hl]
        have hrec := ih m2 (idx + 1) rest (by simp at h; omega) (by simp at h2; omega)
        rw [hrec]

theorem pairLinesFuel_cons_eq (fuel idx : Nat) (l : Line) (rest : List Line) :
    pairLinesFuel (fuel + 1) idx (l :: rest) =
      if l.type = LineType.deleted then
        ((List.range (min (l :: rest.takeWhile (fun x => x.type = LineType.deleted)).length
            ((rest.dropWhile (fun x => x.type = LineType.deleted)).takeWhile
              (fun x => x.type = LineType.added)).length)).map
          (fun i => (idx + i,
            idx + (l :: rest.takeWhile (fun x => x.type = LineType.deleted)).length + i)) ++
          (pairLinesFuel fuel
            (idx + (l :: rest.takeWhile (fun x => x.type = LineType.deleted)).length +
              ((rest.dropWhile (fun x => x.type = LineType.deleted)).takeWhile
                (fun x => x.type = LineType.added)).length)
            ((rest.dropWhile (fun x => x.type = LineType.deleted)).dropWhile
              (fun x => x.type = LineType.added))).1,
         ((List.range ((l :: rest.takeWhile (fun x => x.type = LineType.deleted)).length -
            min (l :: rest.takeWhile (fun x => x.type = LineType.deleted)).length
              ((rest.dropWhile (fun x => x.type = LineType.deleted)).takeWhile
                (fun x => x.type = LineType.added)).length)).map
          (fun i => idx + min (l :: rest.takeWhile (fun x => x.type = LineType.deleted)).length
              ((rest.dropWhile (fun x => x.type = LineType.deleted)).takeWhile
                (fun x => x.type = LineType.added)).length + i) ++
          (List.range (((rest.dropWhile (fun x => x.type = LineType.deleted)).takeWhile
                (fun x => x.type = LineType.added)).length -
              min (l :: rest.takeWhile (fun x => x.type = LineType.deleted)).length
                ((rest.dropWhile (fun x => x.type = LineType.deleted)).takeWhile
                  (fun x => x.type = LineType.added)).length)).map
            (fun i => idx + (l :: rest.takeWhile (fun x => x.type = LineType.deleted)).length +
              min (l :: rest.takeWhile (fun x => x.type = LineType.deleted)).length
                ((rest.dropWhile (fun x => x.type = LineType.deleted)).takeWhile
                  (fun x => x.type = LineType.added)).length + i)) ++
          (pairLinesFuel fuel
            (idx + (l :: rest.takeWhile (fun x => x.type = LineType.deleted)).length +
              ((rest.dropWhile (fun x => x.type = LineType.deleted)).takeWhile
                (fun x => x.type = LineType.added)).length)
            ((rest.dropWhile (fun x => x.type = LineType.deleted)).dropWhile
              (fun x => x.type = LineType.added))).2)
      else
        ((pairLinesFuel fuel (idx + 1) rest).1,
          idx :: (pairLinesFuel fuel (idx + 1) rest).2) := rfl

theorem pairLinesFuel_bounds :
    ∀ (fuel idx : Nat) (xs : List Line),
      (∀ p ∈ (pairLinesFuel fuel idx xs).1,
        idx ≤ p.1 ∧ p.1 < idx + xs.length ∧ idx ≤ p.2 ∧ p.2 < idx + xs.length) ∧
      (∀ i ∈ (pairLinesFuel fuel idx xs).2, idx ≤ i ∧ i < idx + xs.length) := by
  intro fuel
  induction fuel with
  | zero =>
    intro idx xs
    cases xs <;> simp [pairLinesFuel]
  | succ m ih =>
    intro idx xs
    cases xs with
    | nil => simp [pairLinesFuel]
    | cons l rest =>
      show (∀ p ∈ (pairLinesFuel (m + 1) idx (l :: rest)).1, _) ∧ _
      unfold pairLinesFuel
      by_cases hl : l.type = LineType.deleted
      · simp only [if_pos hl]
        have e1 : (rest.takeWhile (fun x => x.type = LineType.deleted)).length +
            (rest.dropWhile (fun x => x.type = LineType.deleted)).length = rest.length := by
          rw [← List.length_append, List.takeWhile_append_dropWhile]
        have e2 : ((rest.dropWhile (fun x => x.type = LineType.deleted)).takeWhile
              (fun x => x.type = LineType.added)).length +
            ((rest.dropWhile (fun x => x.type = LineType.deleted)).dropWhile
              (fun x => x.type = LineType.added)).length =
            (rest.dropWhile (fun x => x.type = LineType.deleted)).length := by
          rw [← List.length_append, List.takeWhile_append_dropWhile]
        have hrec := ih (idx + (l :: rest.takeWhile (fun x => x.type = LineType.deleted)).length +
            ((rest.dropWhile (fun x => x.type = LineType.deleted)).takeWhile
              (fun x => x.type = LineType.added)).length)
            ((rest.dropWhile (fun x => x.type = LineType.deleted)).dropWhile
              (fun x => x.type = LineType.added))
        constructor
        · intro p hp
          simp only [List.mem_append, List.mem_map, List.mem_range] at hp
          rcases hp with ⟨i, hi, rfl⟩ | hp
          · simp only [List.length_cons] at *
            omega
          · have := hrec.1 p hp
            simp only [List.length_cons] at *
            omega
        · intro i hi
          simp only [List.mem_append, List.mem_map, List.mem_range] at hi
          rcases hi with (⟨j, hj, rfl⟩ | ⟨j, hj, rfl⟩) | hi
          · simp only [List.length_cons] at *
            omega
          · simp only [List.length_cons] at *
            omega
          · have := hrec.2 i hi
            simp only [List.length_cons] at *
            omega
      · simp only [if_neg hl]
        have hrec := ih (idx + 1) rest
        constructor
        · intro p hp
          have := hrec.1 p hp
          simp only [List.length_cons] at *
          omega
        · intro i hi
          rcases List.mem_cons.mp hi with rfl | hi
          · simp only [List.length_cons]
            omega
          · have := hrec.2 i hi
            simp only [List.length_cons] at *
            omega

theorem pairLinesFuel_skip :
    ∀ (run : List Line), (∀ l ∈ run, ¬(l.type = LineType.deleted)) →
      ∀ (fuel idx : Nat) (post : List Line), (run ++ post).length ≤ fuel →
        pairLinesFuel fuel idx (run ++ post) =
          ((pairLinesFuel post.length (idx + run.length) post).1,
            List.range' idx run.length ++
              (pairLinesFuel post.length (idx + run.length) post).2) := by
  intro run
  induction run with
  | nil =>
    intro _ fuel idx post hfuel
    simp only [List.nil_append, List.length_nil, Nat.add_zero, List.range'_zero]
    rw [pairLinesFuel_congr fuel post.length idx post (by simpa using hfuel) (Nat.le_refl _)]
  | cons r rs ih =>
    intro hrun fuel idx post hfuel
    obtain ⟨m, rfl⟩ : ∃ m, fuel = m + 1 := by
      cases fuel
      · simp at hfuel
      · exact ⟨_, rfl⟩
    show pairLinesFuel (m + 1) idx (r :: (rs ++ post)) = _
    rw [pairLinesFuel_cons_eq, if_neg (hrun r (List.mem_cons_self _ _))]
    rw [ih (fun l hl => hrun l (List.mem_cons_of_mem _ hl)) m (idx + 1) post
      (by simp at hfuel ⊢; omega)]
    have hidx : idx + 1 + rs.length = idx + (rs.length + 1) := by omega
    rw [hidx]
    simp only [List.length_cons, List.range'_succ, List.cons_append]

theorem pairLinesFuel_delrun (dels adds post : List Line)
    (hd : dels ≠ []) (hdall : ∀ l ∈ dels, l.type = LineType.deleted)
    (haall : ∀ l ∈ adds, l.type = LineType.added)
    (hpost1 : ∀ z, post.head? = some z → ¬(z.type = LineType.added))
    (hpost2 : adds = [] → ∀ z, post.head? = some z → ¬(z.type = LineType.deleted))
    (fuel idx : Nat) (hfuel : (dels ++ adds ++ post).length ≤ fuel) :
    pairLinesFuel fuel idx (dels ++ adds ++ post) =
      ((List.range (min dels.length adds.length)).map
          (fun i => (idx + i, idx + dels.length + i)) ++
        (pairLinesFuel post.length (idx + dels.length + adds.length) post).1,
       ((List.range (dels.length - min dels.length adds.length)).map
          (fun i => idx + min dels.length adds.length + i) ++
        (List.range (adds.length - min dels.length adds.length)).map
          (fun i => idx + dels.length + min dels.length adds.length + i)) ++
        (pairLinesFuel post.length (idx + dels.length + adds.length) post).2) := by
  obtain ⟨d, ds, rfl⟩ : ∃ d ds, dels = d :: ds := by
    cases dels
    · exact absurd rfl hd
    · exact ⟨_, _, rfl⟩
  obtain ⟨m, rfl⟩ : ∃ m, fuel = m + 1 := by
    cases fuel
    · simp at hfuel
    · exact ⟨_, rfl⟩
  have hds : ∀ a ∈ ds, (fun x => decide (x.type = LineType.deleted)) a = true :=
    fun a ha => by simp [hdall a (List.mem_cons_of_mem _ ha)]
  have hadds : ∀ a ∈ adds, (fun x => decide (x.type = LineType.added)) a = true :=
    fun a ha => by simp [haall a ha]
  have htw0 : (adds ++ post).takeWhile (fun x => x.type = LineType.deleted) = [] := by
    cases adds with
    | nil =>
      cases post with
      | nil => rfl
      | cons z t => exact List.takeWhile_cons_of_neg (by simp [hpost2 rfl z rfl])
    | cons a as =>
      have : ¬(a.type = LineType.deleted) := by
        rw [haall a (List.mem_cons_self _ _)]
        simp
      exact List.takeWhile_cons_of_neg (by simpa using this)
  have hdw0 : (adds ++ post).dropWhile (fun x => x.type = LineType.deleted) =
      adds ++ post := by
    cases adds with
    | nil =>
      cases post with
      | nil => rfl
      | cons z t => exact List.dropWhile_cons_of_neg (by simp [hpost2 rfl z rfl])
    | cons a as =>
      have : ¬(a.type = LineType.deleted) := by
        rw [haall a (List.mem_cons_self _ _)]
        simp
      exact List.dropWhile_cons_of_neg (by simpa using this)
  have htw : (ds ++ (adds ++ post)).takeWhile (fun x => x.type = LineType.deleted) = ds := by
    rw [List.takeWhile_append_of_pos hds, htw0, List.append_nil]
  have hdw : (ds ++ (adds ++ post)).dropWhile (fun x => x.type = LineType.deleted) =
      adds ++ post := by
    rw [List.dropWhile_append_of_pos hds, hdw0]
  have htw2 : (adds ++ post).takeWhile (fun x => x.type = LineType.added) = adds := by
    rw [List.takeWhile_append_of_pos hadds]
    cases post with
    | nil => simp
    | cons z t =>
      rw [List.takeWhile_cons_of_neg (by simp [hpost1 z rfl]), List.append_nil]
  have hdw2 : (adds ++ post).dropWhile (fun x => x.type = LineType.added) = post := by
    rw [List.dropWhile_append_of_pos hadds]
    cases post with
    | nil => rfl
    | cons z t => exact List.dropWhile_cons_of_neg (by simp [hpost1 z rfl])
  simp only [List.cons_append, List.append_assoc]
  rw [pairLinesFuel_cons_eq, if_pos (hdall d (List.mem_cons_self _ _)), htw, hdw, htw2, hdw2]
  rw [pairLinesFuel_congr m post.length
    (idx + (d :: ds).length + adds.length) post
    (by simp only [List.length_cons, List.length_append] at hfuel ⊢; omega) (Nat.le_refl _)]
  simp [List.append_assoc]

/-- The boundary between `pre` and `ys` is safe for the pairer's chunked scan:
`pre` does not end in a Deleted line, and if it ends in an Added line then
`ys` does not begin with one (so no run crosses the boundary). -/
def seamSafe (pre ys : List Line) : Prop :=
  ∀ l, pre.getLast? = some l → ¬(l.type = LineType.deleted) ∧
    (l.type = LineType.added → ∀ z, ys.head? = some z → ¬(z.type = LineType.added))

theorem getLast?_suffix_eq {l s : List Line} (h : s <:+ l) (hs : s ≠ []) :
    l.getLast? = s.getLast? := by
  obtain ⟨t, rfl⟩ := h
  rw [List.getLast?_append]
  cases hsome : s.getLast? with
  | none =>
    rw [List.getLast?_eq_none_iff] at hsome
    exact absurd hsome hs
  | some x => rfl

theorem seamSafe_suffix {pre s ys : List Line} (hsafe : seamSafe pre ys)
    (h : s <:+ pre) : seamSafe s ys := by
  intro l hl
  have hs : s ≠ [] := by
    intro he
    rw [he] at hl
    simp at hl
  rw [← getLast?_suffix_eq h hs] at hl
  exact hsafe l hl

theorem pairLinesFuel_seam :
    ∀ (fuel : Nat) (pre : List Line) (idx : Nat) (ys : List Line),
      (pre ++ ys).length ≤ fuel → seamSafe pre ys →
      pairLinesFuel fuel idx (pre ++ ys) =
        ((pairLinesFuel pre.length idx pre).1 ++
          (pairLinesFuel ys.length (idx + pre.length) ys).1,
         (pairLinesFuel pre.length idx pre).2 ++
          (pairLinesFuel ys.length (idx + pre.length) ys).2) := by
  intro fuel
  induction fuel with
  | zero =>
    intro pre idx ys h _
    simp only [List.length_append, Nat.le_zero, Nat.add_eq_zero] at h
    rw [List.length_eq_zero.mp h.1, List.length_eq_zero.mp h.2]
    rfl
  | succ m ih =>
    intro pre idx ys hfuel hsafe
    cases pre with
    | nil =>
      simp only [List.nil_append, List.length_nil, Nat.add_zero]
      rw [pairLinesFuel_congr (m + 1) ys.length idx ys (by simpa using hfuel)
        (Nat.le_refl _)]
      have hnil : pairLinesFuel (0 : Nat) idx ([] : List Line) = ([], []) := rfl
      rw [hnil]
      simp
    | cons p pres =>
      by_cases hp : p.type = LineType.deleted
      · -- a Deleted chunk; seam safety keeps the whole chunk inside `pre`
        have hex : ∃ x ∈ pres, ¬(x.type = LineType.deleted) := by
          by_contra hno
          push_neg at hno
          have hne : (p :: pres) ≠ [] := by simp
          have hl0 := List.getLast?_eq_getLast (p :: pres) hne
          obtain ⟨hnd, _⟩ := hsafe ((p :: pres).getLast hne) hl0
          rcases List.mem_cons.mp (List.getLast_mem hne) with he | hm2
          · rw [he] at hnd
            exact hnd hp
          · exact hnd (hno _ hm2)
        obtain ⟨x, hx, hxd⟩ := hex
        obtain ⟨htwA, hdwA⟩ :=
          takeWhile_seam (fun x => x.type = LineType.deleted) pres ys
            (Or.inl ⟨x, hx, by simp [hxd]⟩)
        have hdwne : pres.dropWhile (fun x => x.type = LineType.deleted) ≠ [] := by
          intro he
          rw [List.dropWhile_eq_nil_iff] at he
          exact hxd (by simpa using he x hx)
        have hsub1 : pres.dropWhile (fun x => x.type = LineType.deleted) <:+ p :: pres :=
          (List.dropWhile_suffix _).trans (List.suffix_cons _ _)
        have hOr : (∃ y ∈ pres.dropWhile (fun x => x.type = LineType.deleted),
              (fun x => decide (x.type = LineType.added)) y = false) ∨
            (∀ z, ys.head? = some z → (fun x => decide (x.type = LineType.added)) z = false) := by
          by_cases hall : ∀ y ∈ pres.dropWhile (fun x => x.type = LineType.deleted),
              y.type = LineType.added
          · right
            have hl1 : (p :: pres).getLast? =
                some ((pres.dropWhile (fun x => x.type = LineType.deleted)).getLast hdwne) := by
              rw [getLast?_suffix_eq hsub1 hdwne]
              exact List.getLast?_eq_getLast _ hdwne
            obtain ⟨_, himp⟩ := hsafe _ hl1
            intro z hz
            have := himp (hall _ (List.getLast_mem hdwne)) z hz
            simpa using this
          · push_neg at hall
            obtain ⟨y, hy, hyne⟩ := hall
            exact Or.inl ⟨y, hy, by simpa using hyne⟩
        obtain ⟨htwB, hdwB⟩ :=
          takeWhile_seam (fun x => x.type = LineType.added)
            (pres.dropWhile (fun x => x.type = LineType.deleted)) ys hOr
        have hlen1 : (pres.takeWhile (fun x => x.type = LineType.deleted)).length +
            (pres.dropWhile (fun x => x.type = LineType.deleted)).length = pres.length := by
          rw [← List.length_append, List.takeWhile_append_dropWhile]
        have hlen2 : ((pres.dropWhile (fun x => x.type = LineType.deleted)).takeWhile
              (fun x => x.type = LineType.added)).length +
            ((pres.dropWhile (fun x => x.type = LineType.deleted)).dropWhile
              (fun x => x.type = LineType.added)).length =
            (pres.dropWhile (fun x => x.type = LineType.deleted)).length := by
          rw [← List.length_append, List.takeWhile_append_dropWhile]
        have hsub2 : (pres.dropWhile (fun x => x.type = LineType.deleted)).dropWhile
            (fun x => x.type = LineType.added) <:+ p :: pres :=
          (List.dropWhile_suffix _).trans hsub1
        have hfuel2 : (((pres.dropWhile (fun x => x.type = LineType.deleted)).dropWhile
            (fun x => x.type = LineType.added)) ++ ys).length ≤ m := by
          have hle : ((pres.dropWhile (fun x => x.type = LineType.deleted)).dropWhile
              (fun x => x.type = LineType.added)).length ≤ pres.length := by
            calc ((pres.dropWhile (fun x => x.type = LineType.deleted)).dropWhile
                (fun x => x.type = LineType.added)).length
                ≤ (pres.dropWhile (fun x => x.type = LineType.deleted)).length :=
                  (List.dropWhile_sublist _).length_le
              _ ≤ pres.length := (List.dropWhile_sublist _).length_le
          simp only [List.length_append, List.length_cons] at hfuel ⊢
          omega
        simp only [List.cons_append]
        rw [pairLinesFuel_cons_eq, if_pos hp, htwA, hdwA, htwB, hdwB]
        rw [ih ((pres.dropWhile (fun x => x.type = LineType.deleted)).dropWhile
              (fun x => x.type = LineType.added))
            (idx + (p :: pres.takeWhile (fun x => x.type = LineType.deleted)).length +
              ((pres.dropWhile (fun x => x.type = LineType.deleted)).takeWhile
                (fun x => x.type = LineType.added)).length)
            ys hfuel2 (seamSafe_suffix hsafe hsub2)]
        simp only [List.length_cons]
        rw [pairLinesFuel_cons_eq, if_pos hp]
        simp only [List.length_cons]
        rw [pairLinesFuel_congr pres.length
          ((pres.dropWhile (fun x => x.type = LineType.deleted)).dropWhile
            (fun x => x.type = LineType.added)).length
          (idx + ((pres.takeWhile (fun x => x.type = LineType.deleted)).length + 1) +
            ((pres.dropWhile (fun x => x.type = LineType.deleted)).takeWhile
              (fun x => x.type = LineType.added)).length)
          ((pres.dropWhile (fun x => x.type = LineType.deleted)).dropWhile
            (fun x => x.type = LineType.added))
          (by omega) (Nat.le_refl _)]
        have hidx : idx + ((pres.takeWhile (fun x => x.type = LineType.deleted)).length + 1) +
            ((pres.dropWhile (fun x => x.type = LineType.deleted)).takeWhile
              (fun x => x.type = LineType.added)).length +
            ((pres.dropWhile (fun x => x.type = LineType.deleted)).dropWhile
              (fun x => x.type = LineType.added)).length = idx + (pres.length + 1) := by
          omega
        rw [hidx]
        simp [List.append_assoc]
      · -- not a Deleted line: single-line chunk on both sides
        have hsafe2 : seamSafe pres ys := seamSafe_suffix hsafe (List.suffix_cons _ _)
        simp only [List.cons_append]
        rw [pairLinesFuel_cons_eq, if_neg hp]
        rw [ih pres (idx + 1) ys
          (by simp only [List.length_append, List.length_cons] at hfuel ⊢; omega) hsafe2]
        simp only [List.length_cons]
        rw [pairLinesFuel_cons_eq, if_neg hp]
        have hidx : idx + 1 + pres.length = idx + (pres.length + 1) := by omega
        rw [hidx]
        simp [List.append_assoc]

/-- C3: in a hunk line list, a maximal run of consecutive Deleted lines
immediately followed by a run of consecutive Added lines is paired i-th
deletion with i-th addition, in order, for `i` up to the shorter run length;
the excess indices of the longer run are reported unpaired, and the rest of
the list is processed unchanged before and after the run. -/
theorem linePairer_run (pre dels adds post : List Line)
    (hpre : ∀ l, pre.getLast? = some l → ¬(l.type = LineType.deleted))
    (hd : dels ≠ []) (hdall : ∀ l ∈ dels, l.type = LineType.deleted)
    (ha : adds ≠ []) (haall : ∀ l ∈ adds, l.type = LineType.added)
    (hpost : ∀ z, post.head? = some z → ¬(z.type = LineType.added)) :
    pairLines (pre ++ (dels ++ adds ++ post)) =
      ((pairLines pre).1 ++
        ((List.range (min dels.length adds.length)).map
          (fun i => (pre.length + i, pre.length + dels.length + i)) ++
         (pairLinesFuel post.length (pre.length + dels.length + adds.length) post).1),
       (pairLines pre).2 ++
        (((List.range (dels.length - min dels.length adds.length)).map
            (fun i => pre.length + min dels.length adds.length + i) ++
          (List.range (adds.length - min dels.length adds.length)).map
            (fun i => pre.length + dels.length + min dels.length adds.length + i)) ++
         (pairLinesFuel post.length (pre.length + dels.length + adds.length) post).2)) := by
  obtain ⟨d, ds, rfl⟩ : ∃ d ds, dels = d :: ds := by
    cases dels
    · exact absurd rfl hd
    · exact ⟨_, _, rfl⟩
  have hsafe : seamSafe pre ((d :: ds) ++ adds ++ post) := by
    intro l hl
    refine ⟨hpre l hl, fun _ z hz => ?_⟩
    simp only [List.cons_append, List.head?_cons, Option.some.injEq] at hz
    rw [← hz, hdall d (List.mem_cons_self _ _)]
    simp
  unfold pairLines
  rw [pairLinesFuel_seam (pre ++ ((d :: ds) ++ adds ++ post)).length pre 0
    ((d :: ds) ++ adds ++ post) (Nat.le_refl _) hsafe]
  rw [pairLinesFuel_delrun (d :: ds) adds post hd hdall haall hpost
    (fun he => absurd he ha) ((d :: ds) ++ adds ++ post).length (0 + pre.length)
    (Nat.le_refl _)]
  simp only [Nat.zero_add]

/-- C4: an Added line belonging to a maximal Added run with no immediately
preceding Deleted run never occurs in any pair produced by the Line Pairer
and is reported unpaired, and symmetrically a Deleted line of a maximal
Deleted run with no immediately following Added run is never paired; since
the Render Pipeline model (`wordDiffCalls`) invokes the Word Differ exactly
once per produced pair, it is never invoked for such unpaired lines. -/
theorem linePairer_unpaired_lone :
    (∀ (pre adds post : List Line),
      (∀ l, pre.getLast? = some l →
        ¬(l.type = LineType.deleted) ∧ ¬(l.type = LineType.added)) →
      (∀ l ∈ adds, l.type = LineType.added) →
      ∀ i, pre.length ≤ i → i < pre.length + adds.length →
        (∀ p ∈ (pairLines (pre ++ (adds ++ post))).1, p.1 ≠ i ∧ p.2 ≠ i) ∧
        i ∈ (pairLines (pre ++ (adds ++ post))).2) ∧
    (∀ (pre dels post : List Line),
      (∀ l, pre.getLast? = some l → ¬(l.type = LineType.deleted)) →
      dels ≠ [] → (∀ l ∈ dels, l.type = LineType.deleted) →
      (∀ z, post.head? = some z →
        ¬(z.type = LineType.added) ∧ ¬(z.type = LineType.deleted)) →
      ∀ i, pre.length ≤ i → i < pre.length + dels.length →
        (∀ p ∈ (pairLines (pre ++ (dels ++ post))).1, p.1 ≠ i ∧ p.2 ≠ i) ∧
        i ∈ (pairLines (pre ++ (dels ++ post))).2) := by
  constructor
  · intro pre adds post hpre haall i hi1 hi2
    have hsafe : seamSafe pre (adds ++ post) := by
      intro l hl
      refine ⟨(hpre l hl).1, fun hadd => absurd hadd (hpre l hl).2⟩
    have hskip := pairLinesFuel_skip adds
      (fun l hl => by rw [haall l hl]; simp) (adds ++ post).length (0 + pre.length) post
      (Nat.le_refl _)
    have heq : pairLines (pre ++ (adds ++ post)) =
        ((pairLinesFuel pre.length 0 pre).1 ++
          (pairLinesFuel post.length (0 + pre.length + adds.length) post).1,
         (pairLinesFuel pre.length 0 pre).2 ++
          (List.range' (0 + pre.length) adds.length ++
            (pairLinesFuel post.length (0 + pre.length + adds.length) post).2)) := by
      unfold pairLines
      rw [pairLinesFuel_seam (pre ++ (adds ++ post)).length pre 0 (adds ++ post)
        (Nat.le_refl _) hsafe, hskip]
    rw [heq]
    simp only [Nat.zero_add] at *
    constructor
    · intro p hp
      rcases List.mem_append.mp hp with hp1 | hp2
      · have := (pairLinesFuel_bounds pre.length 0 pre).1 p hp1
        omega
      · have := (pairLinesFuel_bounds post.length (pre.length + adds.length) post).1 p hp2
        omega
    · refine List.mem_append.mpr (Or.inr (List.mem_append.mpr (Or.inl ?_)))
      rw [List.mem_range'_1]
      omega
  · intro pre dels post hpre hd hdall hpost i hi1 hi2
    obtain ⟨d, ds, rfl⟩ : ∃ d ds, dels = d :: ds := by
      cases dels
      · exact absurd rfl hd
      · exact ⟨_, _, rfl⟩
    have hsafe : seamSafe pre ((d :: ds) ++ post) := by
      intro l hl
      refine ⟨hpre l hl, fun _ z hz => ?_⟩
      simp only [List.cons_append, List.head?_cons, Option.some.injEq] at hz
      rw [← hz, hdall d (List.mem_cons_self _ _)]
      simp
    have hrun := pairLinesFuel_delrun (d :: ds) [] post hd hdall (by simp)
      (fun z hz => (hpost z hz).1) (fun _ z hz => (hpost z hz).2)
      ((d :: ds) ++ post).length (0 + pre.length) (by simp)
    have heq : pairLines (pre ++ ((d :: ds) ++ post)) =
        ((pairLinesFuel pre.length 0 pre).1 ++
          ((List.range (min (d :: ds).length ([] : List Line).length)).map
            (fun i => (0 + pre.length + i, 0 + pre.length + (d :: ds).length + i)) ++
           (pairLinesFuel post.length
             (0 + pre.length + (d :: ds).length + ([] : List Line).length) post).1),
         (pairLinesFuel pre.length 0 pre).2 ++
          (((List.range ((d :: ds).length - min (d :: ds).length ([] : List Line).length)).map
              (fun i => 0 + pre.length + min (d :: ds).length ([] : List Line).length + i) ++
            (List.range (([] : List Line).length -
                min (d :: ds).length ([] : List Line).length)).map
              (fun i => 0 + pre.length + (d :: ds).length +
                min (d :: ds).length ([] : List Line).length + i)) ++
           (pairLinesFuel post.length
             (0 + pre.length + (d :: ds).length + ([] : List Line).length) post).2)) := by
      unfold pairLines
      rw [pairLinesFuel_seam (pre ++ ((d :: ds) ++ post)).length pre 0 ((d :: ds) ++ post)
        (Nat.le_refl _) hsafe]
      rw [show (d :: ds) ++ post = (d :: ds) ++ [] ++ post by simp] at hrun ⊢
      rw [hrun]
    rw [heq]
    simp only [Nat.zero_add, List.length_nil, Nat.min_zero, List.range_zero,
      List.map_nil, List.nil_append, List.append_nil, Nat.add_zero, Nat.sub_zero] at *
    constructor
    · intro p hp
      rcases List.mem_append.mp hp with hp1 | hp2
      · have := (pairLinesFuel_bounds pre.length 0 pre).1 p hp1
        omega
      · have := (pairLinesFuel_bounds post.length
            (pre.length + (d :: ds).length) post).1 p hp2
        omega
    · refine List.mem_append.mpr (Or.inr (List.mem_append.mpr (Or.inl ?_)))
      simp only [List.mem_map, List.mem_range]
      exact ⟨i - pre.length, by simp only [List.length_cons] at *; omega, by omega⟩

/-- Witness for C2: `"ab"` and `"xy"` share no tokens, so the ratio is 0 and
the Word Differ degrades both sides to one fully changed segment. -/
theorem wordDiffer_below_threshold_witness :
    ratio (tokenize ['a', 'b']) (tokenize ['x', 'y']) < 2 / 5 ∧
      Differ.Diff ['a', 'b'] ['x', 'y'] =
        ([⟨['a', 'b'], true⟩], [⟨['x', 'y'], true⟩]) := by
  have hm : matchedCount (tokenize ['a', 'b']) (tokenize ['x', 'y']) = 0 := by decide
  have hla : (tokenize ['a', 'b']).length = 1 := by decide
  have hlb : (tokenize ['x', 'y']).length = 1 := by decide
  have hr : ratio (tokenize ['a', 'b']) (tokenize ['x', 'y']) < 2 / 5 := by
    rw [ratio, if_neg (by rw [hla, hlb]; omega), hm, hla, hlb]
    norm_num
  exact ⟨hr, wordDiffer_below_threshold ['a', 'b'] ['x', 'y'] hr⟩

/-- Witness for C3: `[Deleted A, Deleted B, Added C, Added D]` yields exactly
the index pairs (0,2) and (1,3) — A with C and B with D, in order — with zero
unpaired lines, and the render model invokes the differ on (A,C) and (B,D). -/
theorem linePairer_run_witness :
    pairLines [⟨LineType.deleted, ['A'], 1, 0, false⟩,
        ⟨LineType.deleted, ['B'], 2, 0, false⟩,
        ⟨LineType.added, ['C'], 0, 1, false⟩,
        ⟨LineType.added, ['D'], 0, 2, false⟩] = ([(0, 2), (1, 3)], []) ∧
      wordDiffCalls [⟨LineType.deleted, ['A'], 1, 0, false⟩,
        ⟨LineType.deleted, ['B'], 2, 0, false⟩,
        ⟨LineType.added, ['C'], 0, 1, false⟩,
        ⟨LineType.added, ['D'], 0, 2, false⟩] = [(['A'], ['C']), (['B'], ['D'])] := by
  have h := linePairer_run []
    [⟨LineType.deleted, ['A'], 1, 0, false⟩, ⟨LineType.deleted, ['B'], 2, 0, false⟩]
    [⟨LineType.added, ['C'], 0, 1, false⟩, ⟨LineType.added, ['D'], 0, 2, false⟩]
    []
    (by intro l hl; simp at hl) (by simp) (by decide) (by simp) (by decide)
    (by intro z hz; simp at hz)
  exact ⟨h.trans (by decide), by decide⟩

/-- Witness for C4: `[Context X, Added Y]` produces no pair, index 1 (the
added line Y) is reported unpaired, and the full pairer output is
`([], [0, 1])`. -/
theorem linePairer_unpaired_lone_witness :
    (∀ p ∈ (pairLines [⟨LineType.context, ['X'], 1, 1, false⟩,
        ⟨LineType.added, ['Y'], 0, 2, false⟩]).1, p.1 ≠ 1 ∧ p.2 ≠ 1) ∧
      1 ∈ (pairLines [⟨LineType.context, ['X'], 1, 1, false⟩,
        ⟨LineType.added, ['Y'], 0, 2, false⟩]).2 ∧
      pairLines [⟨LineType.context, ['X'], 1, 1, false⟩,
        ⟨LineType.added, ['Y'], 0, 2, false⟩] = ([], [0, 1]) := by
  have h := linePairer_unpaired_lone.1 [⟨LineType.context, ['X'], 1, 1, false⟩]
    [⟨LineType.added, ['Y'], 0, 2, false⟩] []
    (by
      intro l hl
      obtain rfl : (⟨LineType.context, ['X'], 1, 1, false⟩ : Line) = l := by simpa using hl
      exact ⟨by decide, by decide⟩)
    (by decide) 1 (by decide) (by decide)
  exact ⟨h.1, h.2, by decide⟩

/-! ## Diff Parser (spec §4.1, §6, §7; domain types from src/diffview.go) -/

/-- `FileOp` from `diffview.go`. -/
inductive FileOp where
  | modified
  | added
  | deleted
  | renamed
  | copied
deriving DecidableEq

/-- `Hunk` from `diffview.go` (`sect` is the optional trailing context text of
the `@@` header, named `Section` in the source, which is a Lean keyword). -/
structure Hunk where
  oldStart : Nat
  oldCount : Nat
  newStart : Nat
  newCount : Nat
  sect : Str
  lines : List Line
deriving DecidableEq

/-- `FileDiff` from `diffview.go`, with file modes as plain numbers. -/
structure FileDiff where
  oldPath : Str
  newPath : Str
  operation : FileOp
  isBinary : Bool
  oldMode : Nat
  newMode : Nat
  hunks : List Hunk
  extended : List Str
deriving DecidableEq

/-- `Diff` from `diffview.go`. -/
structure Diff where
  files : List FileDiff
deriving DecidableEq

/-- Modelled from the spec: `ParseError` carries the 1-based source line
number of the malformed construct and a human-readable reason (§4.1, §6). -/
structure ParseError where
  lineNo : Nat
  reason : Str
deriving DecidableEq

/-- Strip a known prefix, or fail. -/
def dropPrefix? (pfx s : Str) : Option Str :=
  if pfx.isPrefixOf s then some (s.drop pfx.length) else none

/-- Whether `s` starts with `pfx`. -/
def startsWith (pfx s : Str) : Bool := pfx.isPrefixOf s

/-- Accumulate leading decimal digits. -/
def parseNatAux : List Char → Nat → Nat × List Char
  | [], acc => (acc, [])
  | c :: cs, acc =>
    if c.isDigit then parseNatAux cs (acc * 10 + (c.toNat - 48)) else (acc, c :: cs)

/-- Parse a nonempty run of decimal digits. -/
def parseNat? (s : Str) : Option (Nat × Str) :=
  match s with
  | c :: _ => if c.isDigit then some (parseNatAux s 0) else none
  | [] => none

/-- Parse a run of octal digits (for file modes). -/
def parseOctal (s : Str) : Nat :=
  (s.takeWhile Char.isDigit).foldl (fun acc c => acc * 8 + (c.toNat - 48)) 0

/-- Modelled from the spec: parse a hunk header
`@@ -a[,b] +c[,d] @@ [section]`; omitted counts default to 1 (§4.1). -/
def parseHunkHeader (l : Str) : Option (Nat × Nat × Nat × Nat × Str) := do
  let r1 ← dropPrefix? ['@', '@', ' ', '-'] l
  let (a, r2) ← parseNat? r1
  let (b, r3) ←
    match dropPrefix? [','] r2 with
    | some r => parseNat? r
    | none => some (1, r2)
  let r4 ← dropPrefix? [' ', '+'] r3
  let (c, r5) ← parseNat? r4
  let (d, r6) ←
    match dropPrefix? [','] r5 with
    | some r => parseNat? r
    | none => some (1, r5)
  let r7 ← dropPrefix? [' ', '@', '@'] r6
  match r7 with
  | ' ' :: rest => some (a, b, c, d, rest)
  | _ => some (a, b, c, d, [])

/-- Modelled from the spec: the binary-file markers `Binary files ... differ`
and `GIT binary patch` (§4.1). -/
def isBinaryMarker (l : Str) : Bool :=
  startsWith ("Binary files ".toList) l || startsWith ("GIT binary patch".toList) l

/-- File-section state accumulated from extended headers. -/
structure FileState where
  oldPath : Str
  newPath : Str
  operation : FileOp
  isBinary : Bool
  oldMode : Nat
  newMode : Nat
  extended : List Str
deriving DecidableEq

/-- The empty file-section state. -/
def initFileState : FileState :=
  ⟨[], [], FileOp.modified, false, 0, 0, []⟩

/-- `/dev/null` denotes a missing side and becomes the empty path. -/
def parsePathToken (p : Str) : Str :=
  if p = "/dev/null".toList then [] else p

/-- Modelled from the spec: classify one extended-header line (§4.1, §6):
binary markers set `IsBinary`; `--- `/`+++ ` set the paths; mode and
rename/copy headers set operation and modes; everything else (index lines,
similarity index, the `diff --git` payload) is passthrough in `Extended`. -/
def applyHeader (l : Str) (st : FileState) : FileState :=
  if isBinaryMarker l then
    { st with isBinary := true, extended := st.extended ++ [l] }
  else
    match dropPrefix? ("--- ".toList) l with
    | some p => { st with oldPath := parsePathToken p }
    | none =>
    match dropPrefix? ("+++ ".toList) l with
    | some p => { st with newPath := parsePathToken p }
    | none =>
    match dropPrefix? ("new file mode ".toList) l with
    | some m => { st with operation := FileOp.added, newMode := parseOctal m,
                          extended := st.extended ++ [l] }
    | none =>
    match dropPrefix? ("deleted file mode ".toList) l with
    | some m => { st with operation := FileOp.deleted, oldMode := parseOctal m,
                          extended := st.extended ++ [l] }
    | none =>
    match dropPrefix? ("old mode ".toList) l with
    | some m => { st with oldMode := parseOctal m, extended := st.extended ++ [l] }
    | none =>
    match dropPrefix? ("new mode ".toList) l with
    | some m => { st with newMode := parseOctal m, extended := st.extended ++ [l] }
    | none =>
    if startsWith ("rename from ".toList) l || startsWith ("rename to ".toList) l then
      { st with operation := FileOp.renamed, extended := st.extended ++ [l] }
    else if startsWith ("copy from ".toList) l || startsWith ("copy to ".toList) l then
      { st with operation := FileOp.copied, extended := st.extended ++ [l] }
    else
      { st with extended := st.extended ++ [l] }

/-- Modelled from the spec: consume a file section's extended headers up to
the first hunk header, the next file section, or the end of input (§4.1);
fueled, returns the updated state, the unconsumed lines and the next 1-based
line number. -/
def parseHeaders : Nat → Nat → List Str → FileState →
    Except ParseError (FileState × List Str × Nat)
  | _, ln, [], st => .ok (st, [], ln)
  | 0, ln, _ :: _, _ => .error ⟨ln, "parser fuel exhausted".toList⟩
  | fuel + 1, ln, l :: rest, st =>
    if startsWith ("diff --git ".toList) l then .ok (st, l :: rest, ln)
    else if startsWith ['@', '@'] l then .ok (st, l :: rest, ln)
    else parseHeaders fuel (ln + 1) rest (applyHeader l st)

/-- Mark the `\ No newline at end of file` flag on an already-parsed line. -/
def markNoNewline (a : Line) : Line :=
  { a with noNewline := true }

/-- Modelled from the spec: parse one hunk body (§4.1): counters seeded from
the header are decremented per contributing line and the running line numbers
incremented (Context lines get both numbers, Deleted lines `NewLineNum = 0`,
Added lines `OldLineNum = 0`); a `\` marker sets `NoNewline` on the previous
line; a truncated or overfull hunk is a `ParseError`.  `acc` holds the parsed
lines in reverse. -/
def parseHunkBody : Nat → Nat → Nat → Nat → Nat → Nat → List Str → List Line →
    Except ParseError (List Line × List Str × Nat)
  | _, ln, _, _, oldLeft, newLeft, [], acc =>
    if oldLeft = 0 ∧ newLeft = 0 then .ok (acc.reverse, [], ln)
    else .error ⟨ln, "unexpected EOF in hunk".toList⟩
  | fuel, ln, oldNum, newNum, oldLeft, newLeft, l :: rest, acc =>
    if oldLeft = 0 ∧ newLeft = 0 then
      if startsWith ['\\'] l then
        match acc with
        | a :: as => .ok ((markNoNewline a :: as).reverse, rest, ln + 1)
        | [] => .error ⟨ln, "no-newline marker without a line".toList⟩
      else .ok (acc.reverse, l :: rest, ln)
    else
      match fuel with
      | 0 => .error ⟨ln, "parser fuel exhausted".toList⟩
      | fuel + 1 =>
        if startsWith ['\\'] l then
          match acc with
          | a :: as =>
            parseHunkBody fuel (ln + 1) oldNum newNum oldLeft newLeft rest
              (markNoNewline a :: as)
          | [] => .error ⟨ln, "no-newline marker without a line".toList⟩
        else
          match l with
          | ' ' :: content =>
            if 0 < oldLeft ∧ 0 < newLeft then
              parseHunkBody fuel (ln + 1) (oldNum + 1) (newNum + 1) (oldLeft - 1)
                (newLeft - 1) rest
                (⟨LineType.context, content, oldNum, newNum, false⟩ :: acc)
            else .error ⟨ln, "hunk line counts exceeded".toList⟩
          | '-' :: content =>
            if 0 < oldLeft then
              parseHunkBody fuel (ln + 1) (oldNum + 1) newNum (oldLeft - 1) newLeft rest
                (⟨LineType.deleted, content, oldNum, 0, false⟩ :: acc)
            else .error ⟨ln, "hunk line counts exceeded".toList⟩
          | '+' :: content =>
            if 0 < newLeft then
              parseHunkBody fuel (ln + 1) oldNum (newNum + 1) oldLeft (newLeft - 1) rest
                (⟨LineType.added, content, 0, newNum, false⟩ :: acc)
            else .error ⟨ln, "hunk line counts exceeded".toList⟩
          | _ => .error ⟨ln, "malformed hunk line".toList⟩

/-- Modelled from the spec: parse the consecutive hunks of one file section
(§4.1).  A hunk header whose start position is 0 while its count is positive
would force a 0 line number on a Context/Deleted (resp. Added) line, which
the spec's 1-based numbering invariant (§3) forbids, so it is malformed. -/
def parseHunks : Nat → Nat → List Str → List Hunk →
    Except ParseError (List Hunk × List Str × Nat)
  | _, ln, [], acc => .ok (acc, [], ln)
  | 0, ln, _ :: _, _ => .error ⟨ln, "parser fuel exhausted".toList⟩
  | fuel + 1, ln, l :: rest, acc =>
    if startsWith ['@', '@'] l then
      match parseHunkHeader l with
      | none => .error ⟨ln, "malformed hunk header".toList⟩
      | some (a, b, c, d, sect) =>
        if (0 < b → 0 < a) ∧ (0 < d → 0 < c) then
          match parseHunkBody fuel (ln + 1) a c b d rest [] with
          | .error e => .error e
          | .ok (body, rest2, ln2) =>
            parseHunks fuel ln2 rest2 (acc ++ [⟨a, b, c, d, sect, body⟩])
        else .error ⟨ln, "malformed hunk header".toList⟩
    else .ok (acc, l :: rest, ln)

/-- Assemble a `FileDiff` from the accumulated section state and hunks. -/
def mkFileDiff (st : FileState) (hks : List Hunk) : FileDiff :=
  ⟨st.oldPath, st.newPath, st.operation, st.isBinary, st.oldMode, st.newMode,
    hks, st.extended⟩

/-- Modelled from the spec: parse the sequence of file sections (§4.1): each
section starts with a `diff --git` line, followed by extended headers and
then either hunks or nothing (binary files never carry hunks — a binary
section followed by a hunk header is malformed); any other top-level line is
a hard `ParseError`. -/
def parseFiles : Nat → Nat → List Str → Except ParseError (List FileDiff)
  | _, _, [] => .ok []
  | 0, ln, _ :: _ => .error ⟨ln, "parser fuel exhausted".toList⟩
  | fuel + 1, ln, l :: rest =>
    if startsWith ("diff --git ".toList) l then
      match parseHeaders fuel (ln + 1) rest initFileState with
      | .error e => .error e
      | .ok (st, rest2, ln2) =>
        if st.isBinary then
          match rest2 with
          | l2 :: _ =>
            if startsWith ['@', '@'] l2 then
              .error ⟨ln2, "binary file with hunks".toList⟩
            else
              match parseFiles fuel ln2 rest2 with
              | .error e => .error e
              | .ok fds => .ok (mkFileDiff st [] :: fds)
          | [] => .ok [mkFileDiff st []]
        else
          match parseHunks fuel ln2 rest2 [] with
          | .error e => .error e
          | .ok (hks, rest3, ln3) =>
            match parseFiles fuel ln3 rest3 with
            | .error e => .error e
            | .ok fds => .ok (mkFileDiff st hks :: fds)
    else .error ⟨ln, "expected file header".toList⟩

/-- Split raw diff text into lines, like a line scanner: no trailing empty
line for text ending in a newline. -/
def splitLinesGo : List Char → List Char → List Str
  | [], cur => if cur = [] then [] else [cur.reverse]
  | c :: rest, cur =>
    if c = '\n' then cur.reverse :: splitLinesGo rest []
    else splitLinesGo rest (c :: cur)

/-- Split raw diff text into lines. -/
def splitLines (s : Str) : List Str := splitLinesGo s []

/-- Modelled from the spec: `Parse(rawText) -> (Diff, error)` (§4.1): empty
input yields the empty diff with no error. -/
def Parse (text : Str) : Except ParseError Diff :=
  match parseFiles ((splitLines text).length + 1) 1 (splitLines text) with
  | .error e => .error e
  | .ok fds => .ok ⟨fds⟩

deriving instance DecidableEq for Except

/-- The spec's line-numbering invariant (§3): `OldLineNum == 0` iff the line
is Added, and `NewLineNum == 0` iff the line is Deleted. -/
def lineNumOK (l : Line) : Prop :=
  (l.oldLineNum = 0 ↔ l.type = LineType.added) ∧
  (l.newLineNum = 0 ↔ l.type = LineType.deleted)

theorem markNoNewline_lineNumOK {a : Line} (h : lineNumOK a) :
    lineNumOK (markNoNewline a) := h

theorem parseHunkBody_sound :
    ∀ (fuel ln oldNum newNum oldLeft newLeft : Nat) (lines : List Str)
      (acc out : List Line) (rest : List Str) (ln2 : Nat),
      parseHunkBody fuel ln oldNum newNum oldLeft newLeft lines acc =
        .ok (out, rest, ln2) →
      (0 < oldLeft → 0 < oldNum) → (0 < newLeft → 0 < newNum) →
      (∀ l ∈ acc, lineNumOK l) → ∀ l ∈ out, lineNumOK l := by
  intro fuel
  induction fuel using Nat.strong_induction_on with
  | _ fuel ih =>
    intro ln oldNum newNum oldLeft newLeft lines acc out rest ln2 h hOld hNew hacc
    cases lines with
    | nil =>
      unfold parseHunkBody at h
      split at h
      · simp only [Except.ok.injEq, Prod.mk.injEq] at h
        obtain ⟨h1, -, -⟩ := h
        subst h1
        intro l hl
        exact hacc l (List.mem_reverse.mp hl)
      · exact Except.noConfusion h
    | cons l rest0 =>
      unfold parseHunkBody at h
      split at h
      · -- both counters exhausted: output is the accumulator (possibly with
        -- the no-newline marker applied), reversed
        split at h
        · split at h
          · simp only [Except.ok.injEq, Prod.mk.injEq] at h
            obtain ⟨h1, -, -⟩ := h
            subst h1
            intro x hx
            rcases List.mem_cons.mp (List.mem_reverse.mp hx) with rfl | hx2
            · exact markNoNewline_lineNumOK (hacc _ (List.mem_cons_self _ _))
            · exact hacc _ (List.mem_cons_of_mem _ hx2)
          · exact Except.noConfusion h
        · simp only [Except.ok.injEq, Prod.mk.injEq] at h
          obtain ⟨h1, -, -⟩ := h
          subst h1
          intro x hx
          exact hacc x (List.mem_reverse.mp hx)
      · split at h
        · exact Except.noConfusion h
        · next fuel2 =>
          split at h
          · -- no-newline marker mid-hunk: mark the previous line and continue
            split at h
            · refine ih fuel2 (by omega) _ _ _ _ _ _ _ _ _ _ h hOld hNew ?_
              intro x hx
              rcases List.mem_cons.mp hx with rfl | hx2
              · exact markNoNewline_lineNumOK (hacc _ (List.mem_cons_self _ _))
              · exact hacc _ (List.mem_cons_of_mem _ hx2)
            · exact Except.noConfusion h
          · split at h
            · -- context line: both numbers positive, hence nonzero
              split at h
              · next hcnt =>
                refine ih fuel2 (by omega) _ _ _ _ _ _ _ _ _ _ h
                  (fun _ => by omega) (fun _ => by omega) ?_
                intro x hx
                rcases List.mem_cons.mp hx with rfl | hx2
                · dsimp only [lineNumOK]
                  have h1 := hOld hcnt.1
                  have h2 := hNew hcnt.2
                  refine ⟨⟨fun hq => absurd hq (by omega), fun hq => by simp at hq⟩,
                    ⟨fun hq => absurd hq (by omega), fun hq => by simp at hq⟩⟩
                · exact hacc _ hx2
              · exact Except.noConfusion h
            · -- deleted line: OldLineNum positive, NewLineNum = 0
              split at h
              · next hcnt =>
                refine ih fuel2 (by omega) _ _ _ _ _ _ _ _ _ _ h
                  (fun _ => by omega) hNew ?_
                intro x hx
                rcases List.mem_cons.mp hx with rfl | hx2
                · dsimp only [lineNumOK]
                  have h1 := hOld hcnt
                  exact ⟨⟨fun hq => absurd hq (by omega), fun hq => by simp at hq⟩,
                    ⟨fun _ => rfl, fun _ => rfl⟩⟩
                · exact hacc _ hx2
              · exact Except.noConfusion h
            · -- added line: OldLineNum = 0, NewLineNum positive
              split at h
              · next hcnt =>
                refine ih fuel2 (by omega) _ _ _ _ _ _ _ _ _ _ h
                  hOld (fun _ => by omega) ?_
                intro x hx
                rcases List.mem_cons.mp hx with rfl | hx2
                · dsimp only [lineNumOK]
                  have h1 := hNew hcnt
                  exact ⟨⟨fun _ => rfl, fun _ => rfl⟩,
                    ⟨fun hq => absurd hq (by omega), fun hq => by simp at hq⟩⟩
                · exact hacc _ hx2
              · exact Except.noConfusion h
            · exact Except.noConfusion h

theorem parseHunks_sound :
    ∀ (fuel ln : Nat) (lines : List Str) (acc hks : List Hunk) (rest : List Str)
      (ln2 : Nat),
      parseHunks fuel ln lines acc = .ok (hks, rest, ln2) →
      (∀ hk ∈ acc, ∀ l ∈ hk.lines, lineNumOK l) →
      ∀ hk ∈ hks, ∀ l ∈ hk.lines, lineNumOK l := by
  intro fuel
  induction fuel using Nat.strong_induction_on with
  | _ fuel ih =>
    intro ln lines acc hks rest ln2 h hacc
    cases lines with
    | nil =>
      unfold parseHunks at h
      simp only [Except.ok.injEq, Prod.mk.injEq] at h
      obtain ⟨h1, -, -⟩ := h
      subst h1
      exact hacc
    | cons l rest0 =>
      cases fuel with
      | zero => exact Except.noConfusion h
      | succ m =>
        unfold parseHunks at h
        split at h
        · split at h
          · exact Except.noConfusion h
          · next a b c d sect heq =>
            split at h
            · next hval =>
              split at h
              · exact Except.noConfusion h
              · next body rest2 ln3 hbody =>
                refine ih m (by omega) _ _ _ _ _ _ h ?_
                intro hk hhk
                rcases List.mem_append.mp hhk with hk1 | hk2
                · exact hacc hk hk1
                · rw [List.mem_singleton.mp hk2]
                  exact parseHunkBody_sound m (ln + 1) a c b d rest0 [] body rest2 ln3
                    hbody (fun hb => hval.1 hb) (fun hd => hval.2 hd) (by simp)
            · exact Except.noConfusion h
        · simp only [Except.ok.injEq, Prod.mk.injEq] at h
          obtain ⟨h1, -, -⟩ := h
          subst h1
          exact hacc

theorem parseFiles_sound_nums :
    ∀ (fuel ln : Nat) (lines : List Str) (fds : List FileDiff),
      parseFiles fuel ln lines = .ok fds →
      ∀ fd ∈ fds, ∀ hk ∈ fd.hunks, ∀ l ∈ hk.lines, lineNumOK l := by
  intro fuel
  induction fuel using Nat.strong_induction_on with
  | _ fuel ih =>
    intro ln lines fds h
    cases lines with
    | nil =>
      unfold parseFiles at h
      simp only [Except.ok.injEq] at h
      subst h
      intro fd hfd
      exact absurd hfd (List.not_mem_nil fd)
    | cons l rest0 =>
      cases fuel with
      | zero => exact Except.noConfusion h
      | succ m =>
        unfold parseFiles at h
        split at h
        · split at h
          · exact Except.noConfusion h
          · next st rest2 ln2 hheaders =>
            split at h
            · -- binary file: no hunks at all
              split at h
              · split at h
                · exact Except.noConfusion h
                · split at h
                  · exact Except.noConfusion h
                  · next fds2 hrec =>
                    simp only [Except.ok.injEq] at h
                    subst h
                    intro fd hfd
                    rcases List.mem_cons.mp hfd with rfl | hfd2
                    · intro hk hhk
                      exact absurd hhk (List.not_mem_nil hk)
                    · exact ih m (by omega) _ _ _ hrec fd hfd2
              · simp only [Except.ok.injEq] at h
                subst h
                intro fd hfd
                rcases List.mem_cons.mp hfd with rfl | hfd2
                · intro hk hhk
                  exact absurd hhk (List.not_mem_nil hk)
                · exact absurd hfd2 (List.not_mem_nil fd)
            · split at h
              · exact Except.noConfusion h
              · next hks rest3 ln3 hhunks =>
                split at h
                · exact Except.noConfusion h
                · next fds2 hrec =>
                  simp only [Except.ok.injEq] at h
                  subst h
                  intro fd hfd
                  rcases List.mem_cons.mp hfd with rfl | hfd2
                  · intro hk hhk
                    exact parseHunks_sound m ln2 rest2 [] hks rest3 ln3 hhunks
                      (by simp) hk hhk
                  · exact ih m (by omega) _ _ _ hrec fd hfd2
        · exact Except.noConfusion h

/-- C5: in every hunk of every successfully parsed diff, `OldLineNum == 0`
iff the line is Added and `NewLineNum == 0` iff the line is Deleted; and for
hunk header `@@ -10,3 +10,5 @@` the running counters seeded from the header
give the first context line (10,10), the following deleted line (11,0), the
following added lines (0,11), (0,12), (0,13), and the closing context line
(12,14). -/
theorem parser_line_numbering :
    (∀ (text : Str) (d : Diff), Parse text = .ok d →
      ∀ fd ∈ d.files, ∀ hk ∈ fd.hunks, ∀ l ∈ hk.lines,
        (l.oldLineNum = 0 ↔ l.type = LineType.added) ∧
        (l.newLineNum = 0 ↔ l.type = LineType.deleted)) ∧
    Parse ("diff --git a/f b/f\n--- a/f\n+++ b/f\n@@ -10,3 +10,5 @@\n ctx\n-del\n+add\n+a2\n+a3\n c2\n".toList) =
      .ok ⟨[⟨"a/f".toList, "b/f".toList, FileOp.modified, false, 0, 0,
        [⟨10, 3, 10, 5, [],
          [⟨LineType.context, "ctx".toList, 10, 10, false⟩,
           ⟨LineType.deleted, "del".toList, 11, 0, false⟩,
           ⟨LineType.added, "add".toList, 0, 11, false⟩,
           ⟨LineType.added, "a2".toList, 0, 12, false⟩,
           ⟨LineType.added, "a3".toList, 0, 13, false⟩,
           ⟨LineType.context, "c2".toList, 12, 14, false⟩]⟩], []⟩]⟩ := by
  constructor
  · intro text d h
    unfold Parse at h
    split at h
    · exact Except.noConfusion h
    · next fds hfiles =>
      simp only [Except.ok.injEq] at h
      subst h
      exact parseFiles_sound_nums _ _ _ _ hfiles
  · decide

/-- Witness for C5: the parsed example diff satisfies both the exact line
numbers of the claim and the zero-iff-type invariant. -/
theorem parser_line_numbering_witness :
    Parse ("diff --git a/f b/f\n--- a/f\n+++ b/f\n@@ -10,3 +10,5 @@\n ctx\n-del\n+add\n+a2\n+a3\n c2\n".toList) =
      .ok ⟨[⟨"a/f".toList, "b/f".toList, FileOp.modified, false, 0, 0,
        [⟨10, 3, 10, 5, [],
          [⟨LineType.context, "ctx".toList, 10, 10, false⟩,
           ⟨LineType.deleted, "del".toList, 11, 0, false⟩,
           ⟨LineType.added, "add".toList, 0, 11, false⟩,
           ⟨LineType.added, "a2".toList, 0, 12, false⟩,
           ⟨LineType.added, "a3".toList, 0, 13, false⟩,
           ⟨LineType.context, "c2".toList, 12, 14, false⟩]⟩], []⟩]⟩ ∧
    (∀ fd ∈ (⟨[⟨"a/f".toList, "b/f".toList, FileOp.modified, false, 0, 0,
        [⟨10, 3, 10, 5, [],
          [⟨LineType.context, "ctx".toList, 10, 10, false⟩,
           ⟨LineType.deleted, "del".toList, 11, 0, false⟩,
           ⟨LineType.added, "add".toList, 0, 11, false⟩,
           ⟨LineType.added, "a2".toList, 0, 12, false⟩,
           ⟨LineType.added, "a3".toList, 0, 13, false⟩,
           ⟨LineType.context, "c2".toList, 12, 14, false⟩]⟩], []⟩]⟩ : Diff).files,
      ∀ hk ∈ fd.hunks, ∀ l ∈ hk.lines,
        (l.oldLineNum = 0 ↔ l.type = LineType.added) ∧
        (l.newLineNum = 0 ↔ l.type = LineType.deleted)) :=
  ⟨parser_line_numbering.2, parser_line_numbering.1 _ _ parser_line_numbering.2⟩

theorem applyHeader_isBinary (l : Str) (st : FileState) :
    (applyHeader l st).isBinary = (st.isBinary || isBinaryMarker l) := by
  unfold applyHeader
  by_cases hm : isBinaryMarker l = true
  · rw [if_pos hm, hm]
    simp
  · rw [if_neg hm]
    have hm2 : isBinaryMarker l = false := by
      cases hq : isBinaryMarker l
      · rfl
      · exact absurd hq hm
    rw [hm2, Bool.or_false]
    split
    · rfl
    · split
      · rfl
      · split
        · rfl
        · split
          · rfl
          · split
            · rfl
            · split
              · rfl
              · split
                · rfl
                · split
                  · rfl
                  · rfl

theorem parseHeaders_binary :
    ∀ (fuel ln : Nat) (lines : List Str) (st st2 : FileState) (rest : List Str)
      (ln2 : Nat),
      parseHeaders fuel ln lines st = .ok (st2, rest, ln2) →
      ∃ hs, lines = hs ++ rest ∧
        st2.isBinary = (st.isBinary || hs.any isBinaryMarker) := by
  intro fuel
  induction fuel using Nat.strong_induction_on with
  | _ fuel ih =>
    intro ln lines st st2 rest ln2 h
    cases lines with
    | nil =>
      unfold parseHeaders at h
      simp only [Except.ok.injEq, Prod.mk.injEq] at h
      obtain ⟨h1, h2, -⟩ := h
      exact ⟨[], by rw [← h2]; rfl, by rw [← h1]; simp⟩
    | cons l rest0 =>
      cases fuel with
      | zero => exact Except.noConfusion h
      | succ m =>
        unfold parseHeaders at h
        split at h
        · simp only [Except.ok.injEq, Prod.mk.injEq] at h
          obtain ⟨h1, h2, -⟩ := h
          exact ⟨[], by rw [← h2]; rfl, by rw [← h1]; simp⟩
        · split at h
          · simp only [Except.ok.injEq, Prod.mk.injEq] at h
            obtain ⟨h1, h2, -⟩ := h
            exact ⟨[], by rw [← h2]; rfl, by rw [← h1]; simp⟩
          · obtain ⟨hs, hsplit, hbin⟩ := ih m (by omega) _ _ _ _ _ _ h
            refine ⟨l :: hs, by rw [hsplit]; rfl, ?_⟩
            rw [hbin, applyHeader_isBinary]
            simp [Bool.or_assoc]

theorem parseFiles_binary :
    ∀ (fuel ln : Nat) (lines : List Str) (fds : List FileDiff),
      parseFiles fuel ln lines = .ok fds →
      ∀ fd ∈ fds, fd.isBinary = true → fd.hunks = [] := by
  intro fuel
  induction fuel using Nat.strong_induction_on with
  | _ fuel ih =>
    intro ln lines fds h
    cases lines with
    | nil =>
      unfold parseFiles at h
      simp only [Except.ok.injEq] at h
      subst h
      intro fd hfd
      exact absurd hfd (List.not_mem_nil fd)
    | cons l rest0 =>
      cases fuel with
      | zero => exact Except.noConfusion h
      | succ m =>
        unfold parseFiles at h
        split at h
        · split at h
          · exact Except.noConfusion h
          · next st rest2 ln2 hheaders =>
            split at h
            · split at h
              · split at h
                · exact Except.noConfusion h
                · split at h
                  · exact Except.noConfusion h
                  · next fds2 hrec =>
                    simp only [Except.ok.injEq] at h
                    subst h
                    intro fd hfd hbin
                    rcases List.mem_cons.mp hfd with rfl | hfd2
                    · rfl
                    · exact ih m (by omega) _ _ _ hrec fd hfd2 hbin
              · simp only [Except.ok.injEq] at h
                subst h
                intro fd hfd hbin
                rcases List.mem_cons.mp hfd with rfl | hfd2
                · rfl
                · exact absurd hfd2 (List.not_mem_nil fd)
            · next hnotbin =>
              split at h
              · exact Except.noConfusion h
              · next hks rest3 ln3 hhunks =>
                split at h
                · exact Except.noConfusion h
                · next fds2 hrec =>
                  simp only [Except.ok.injEq] at h
                  subst h
                  intro fd hfd hbin
                  rcases List.mem_cons.mp hfd with rfl | hfd2
                  · exact absurd hbin (by simpa [mkFileDiff] using hnotbin)
                  · exact ih m (by omega) _ _ _ hrec fd hfd2 hbin
        · exact Except.noConfusion h

/-- C6: a file section containing a `Binary files ... differ` or
`GIT binary patch` marker among its headers gets `IsBinary = true` (the
header scan sets the flag exactly when a marker line was consumed), and every
binary `FileDiff` of a successfully parsed diff carries zero hunks — never
partial hunks; concretely, the standard binary file section parses to
`IsBinary = true` with an empty hunk list. -/
theorem parser_binary_detection :
    (∀ (text : Str) (d : Diff), Parse text = .ok d →
      ∀ fd ∈ d.files, fd.isBinary = true → fd.hunks = []) ∧
    (∀ (fuel ln : Nat) (lines : List Str) (st st2 : FileState) (rest : List Str)
      (ln2 : Nat),
      parseHeaders fuel ln lines st = .ok (st2, rest, ln2) →
      ∃ hs, lines = hs ++ rest ∧
        st2.isBinary = (st.isBinary || hs.any isBinaryMarker)) ∧
    Parse ("diff --git a/x.bin b/x.bin\nBinary files a/x.bin and b/x.bin differ\n".toList) =
      .ok ⟨[⟨[], [], FileOp.modified, true, 0, 0, [],
        ["Binary files a/x.bin and b/x.bin differ".toList]⟩]⟩ := by
  refine ⟨?_, parseHeaders_binary, by decide⟩
  intro text d h
  unfold Parse at h
  split at h
  · exact Except.noConfusion h
  · next fds hfiles =>
    simp only [Except.ok.injEq] at h
    subst h
    exact parseFiles_binary _ _ _ _ hfiles

/-- Witness for C6: the binary file section parses with `IsBinary = true`,
and the no-hunks invariant instantiated at it gives the empty hunk list. -/
theorem parser_binary_detection_witness :
    Parse ("diff --git a/x.bin b/x.bin\nBinary files a/x.bin and b/x.bin differ\n".toList) =
      .ok ⟨[⟨[], [], FileOp.modified, true, 0, 0, [],
        ["Binary files a/x.bin and b/x.bin differ".toList]⟩]⟩ ∧
    (⟨[], [], FileOp.modified, true, 0, 0, [],
        ["Binary files a/x.bin and b/x.bin differ".toList]⟩ : FileDiff).hunks = [] :=
  ⟨parser_binary_detection.2.2,
    parser_binary_detection.1 _ _ parser_binary_detection.2.2 _
      (List.mem_singleton.mpr rfl) rfl⟩

/-- C8: parsing empty diff text succeeds with no error and yields a `Diff`
with an empty `Files` list, so callers can tell "no changes" from "failed to
parse". -/
theorem parser_empty_diff : Parse [] = .ok ⟨[]⟩ := by decide

/-! ## Narrative diagrams (src/bubbletea/intro.go) -/

/-- `diffview.Section` as consumed by `NarrativeDiagram`: only `Role` (and
`Title`) are relevant here. -/
structure Section where
  role : String
  title : String
deriving DecidableEq

/-- The external styling/layout collaborator (lipgloss), abstracted to the
operations the diagram code invokes: rendering a bordered node, joining
blocks horizontally/vertically, measuring width, and width-aligned
rendering.  Alignment arguments of the external library are suppressed. -/
structure RenderOps where
  renderNode : String → String
  joinHorizontal : List String → String
  joinVertical : List String → String
  width : String → Nat
  renderAligned : Nat → String → String

/-- `extractRoles` from `intro.go`: unique nonempty roles, in order (the
`seen` set is modelled as a list). -/
def extractRolesAux : List Section → List String → List String
  | [], _ => []
  | s :: rest, seen =>
    if ¬(s.role = "") ∧ ¬(seen.contains s.role = true) then
      s.role :: extractRolesAux rest (s.role :: seen)
    else extractRolesAux rest seen

/-- `extractRoles` from `intro.go`. -/
def extractRoles (sections : List Section) : List String :=
  extractRolesAux sections []

/-- `linearFlowDiagram` from `intro.go`: nodes joined by arrows, with the
trailing arrow dropped. -/
def linearFlowDiagram (sections : List Section) (R : RenderOps) : String :=
  let roles := extractRoles sections
  if roles = [] then ""
  else
    R.joinHorizontal ((roles.flatMap fun role => [R.renderNode role, " → "]).dropLast)

/-- `rightOnlyHubAndSpoke` from `intro.go`. -/
def rightOnlyHubAndSpoke (coreNode : String) (peripheralRoles : List String)
    (R : RenderOps) : String :=
  R.joinHorizontal [coreNode, R.joinVertical (peripheralRoles.map (fun role => "── " ++ role))]

/-- `cardinalHubAndSpoke` from `intro.go`: peripheral roles are assigned, in
order, to the right, left, top and bottom positions around the core. -/
def cardinalHubAndSpoke (coreNode : String) (peripheralRoles : List String)
    (R : RenderOps) : String :=
  let right := peripheralRoles.getD 0 ""
  let left := peripheralRoles.getD 1 ""
  let top := peripheralRoles.getD 2 ""
  let bottom := peripheralRoles.getD 3 ""
  let middleRow := R.joinHorizontal
    ((if ¬(left = "") then [left ++ " ──"] else []) ++ [coreNode] ++
      (if ¬(right = "") then [" ──" ++ right] else []))
  if top = "" ∧ bottom = "" then middleRow
  else
    let middleWidth := R.width middleRow
    let topSection := if ¬(top = "") then
      R.joinVertical [R.renderAligned middleWidth top, R.renderAligned middleWidth "|"]
      else ""
    let bottomSection := if ¬(bottom = "") then
      R.joinVertical [R.renderAligned middleWidth "|", R.renderAligned middleWidth bottom]
      else ""
    R.joinVertical
      ((if ¬(topSection = "") then [topSection] else []) ++ [middleRow] ++
        (if ¬(bottomSection = "") then [bottomSection] else []))

/-- `hubAndSpokeDiagram` from `intro.go`: the `core` role is the hub; 2-4
peripheral roles use the cardinal layout, otherwise the right-only layout; no
roles or no core yields the empty string. -/
def hubAndSpokeDiagram (sections : List Section) (R : RenderOps) : String :=
  let roles := extractRoles sections
  if roles = [] then ""
  else
    let peripheralRoles := roles.filter (fun r => ¬(r = "core"))
    if ¬(roles.contains "core" = true) then ""
    else
      let coreNode := R.renderNode "core"
      if peripheralRoles = [] then coreNode
      else if 2 ≤ peripheralRoles.length ∧ peripheralRoles.length ≤ 4 then
        cardinalHubAndSpoke coreNode peripheralRoles R
      else rightOnlyHubAndSpoke coreNode peripheralRoles R

/-- `NarrativeDiagram` from `intro.go`: dispatch on the narrative string; the
Go source's nil-renderer default is modelled by quantifying over the
renderer operations. -/
def NarrativeDiagram (narrative : String) (sections : List Section)
    (R : RenderOps) : String :=
  if sections = [] then ""
  else if narrative = "cause-effect" ∨ narrative = "entry-implementation" ∨
      narrative = "before-after" ∨ narrative = "rule-instances" then
    linearFlowDiagram sections R
  else if narrative = "core-periphery" then hubAndSpokeDiagram sections R
  else ""

theorem extractRolesAux_nil_of_empty :
    ∀ (sections : List Section) (seen : List String),
      (∀ s ∈ sections, s.role = "") → extractRolesAux sections seen = [] := by
  intro sections
  induction sections with
  | nil => intro seen _; rfl
  | cons s rest ih =>
    intro seen hall
    unfold extractRolesAux
    rw [if_neg (by simp [hall s (List.mem_cons_self _ _)])]
    exact ih seen fun x hx => hall x (List.mem_cons_of_mem _ hx)

/-- C9: `NarrativeDiagram` returns the empty string whenever the narrative is
not one of the five recognized variants, or the section list is empty, or no
section carries a nonempty role — the fallback is empty/no-op, for every
renderer. -/
theorem narrativeDiagram_empty_fallback (narrative : String)
    (sections : List Section) (R : RenderOps)
    (h : (narrative ≠ "cause-effect" ∧ narrative ≠ "entry-implementation" ∧
        narrative ≠ "before-after" ∧ narrative ≠ "rule-instances" ∧
        narrative ≠ "core-periphery") ∨
      sections = [] ∨ (∀ s ∈ sections, s.role = "")) :
    NarrativeDiagram narrative sections R = "" := by
  unfold NarrativeDiagram
  by_cases hs : sections = []
  · rw [if_pos hs]
  · rw [if_neg hs]
    rcases h with ⟨h1, h2, h3, h4, h5⟩ | hs2 | hroles
    · rw [if_neg (by tauto), if_neg h5]
    · exact absurd hs2 hs
    · have hr : extractRoles sections = [] :=
        extractRolesAux_nil_of_empty sections [] hroles
      split
      · simp [linearFlowDiagram, hr]
      · split
        · simp [hubAndSpokeDiagram, hr]
        · rfl

/-- Witness for C9: an unrecognized narrative yields the empty string even
with a nonempty section list, under a concrete renderer. -/
theorem narrativeDiagram_empty_fallback_witness :
    NarrativeDiagram "unknown-style" [⟨"fix", "t"⟩]
      ⟨fun s => s, fun l => String.join l, fun l => String.join l,
        fun _ => 0, fun _ s => s⟩ = "" :=
  narrativeDiagram_empty_fallback "unknown-style" [⟨"fix", "t"⟩]
    ⟨fun s => s, fun l => String.join l, fun l => String.join l,
      fun _ => 0, fun _ s => s⟩
    (Or.inl (by refine ⟨?_, ?_, ?_, ?_, ?_⟩ <;> decide))

/-! ## Display width (src/unnamed/part_002, src/bubbletea/width_test.go) -/

/-- `tabWidth` from the width source file: the terminal tab stop interval. -/
def tabWidth : Int := 8

/-- `displayWidthFrom` from the width source file: the ending column after
rendering `s` starting from `startCol`; a tab advances the column to the next
multiple of `tabWidth` (Go integer division truncates, `Int.tdiv`), every
other rune advances it by its terminal display width, given by the external
`lipgloss.Width`, abstracted as `w`. -/
def displayWidthFrom (w : Char → Nat) (s : Str) (startCol : Int) : Int :=
  s.foldl
    (fun col r =>
      if r = '\t' then (Int.tdiv col tabWidth + 1) * tabWidth else col + w r)
    startCol

/-- `DisplayWidth` from the width source file. -/
def DisplayWidth (w : Char → Nat) (s : Str) : Int := displayWidthFrom w s 0

/-- The claim's description of the scan: walk the string from a starting
column, each tab advancing to the next multiple of 8, every other rune
advancing by its display width. -/
def widthScanSpec (w : Char → Nat) : Int → Str → Int
  | col, [] => col
  | col, r :: rest =>
    if r = '\t' then widthScanSpec w ((Int.tdiv col 8 + 1) * 8) rest
    else widthScanSpec w (col + w r) rest

theorem displayWidthFrom_eq_scan (w : Char → Nat) :
    ∀ (s : Str) (c : Int), displayWidthFrom w s c = widthScanSpec w c s := by
  intro s
  induction s with
  | nil => intro c; rfl
  | cons r rest ih =>
    intro c
    unfold displayWidthFrom widthScanSpec
    rw [List.foldl_cons]
    by_cases hr : r = '\t'
    · rw [if_pos hr, if_pos hr]
      exact ih _
    · rw [if_neg hr, if_neg hr]
      exact ih _

theorem tab_stop_advance {c : Int} (h : 0 ≤ c) : c < (Int.tdiv c 8 + 1) * 8 := by
  obtain ⟨n, rfl⟩ := Int.eq_ofNat_of_zero_le h
  have h1 : Int.tdiv (n : Int) ((8 : Nat) : Int) = ((n / 8 : Nat) : Int) :=
    (Int.ofNat_tdiv n 8).symm
  rw [show ((8 : Nat) : Int) = (8 : Int) from rfl] at h1
  rw [h1]
  have h2 : n < (n / 8 + 1) * 8 := by omega
  exact_mod_cast h2

theorem displayWidthFrom_ge :
    ∀ (w : Char → Nat) (s : Str) (c : Int), 0 ≤ c →
      c ≤ displayWidthFrom w s c ∧ 0 ≤ displayWidthFrom w s c := by
  intro w s
  induction s with
  | nil => intro c hc; exact ⟨Int.le_refl c, hc⟩
  | cons r rest ih =>
    intro c hc
    unfold displayWidthFrom
    rw [List.foldl_cons]
    by_cases hr : r = '\t'
    · rw [if_pos hr]
      have hstep : c < (Int.tdiv c 8 + 1) * 8 := tab_stop_advance hc
      have := ih ((Int.tdiv c tabWidth + 1) * tabWidth) (by unfold tabWidth; omega)
      unfold displayWidthFrom at this
      unfold tabWidth at *
      exact ⟨by omega, this.2⟩
    · rw [if_neg hr]
      have hw : (0 : Int) ≤ (w r : Int) := Int.ofNat_nonneg _
      have := ih (c + w r) (by omega)
      unfold displayWidthFrom at this
      exact ⟨by omega, this.2⟩

/-- C10: `DisplayWidth` is the final column of the scan from column 0 in
which a tab advances to the next multiple of 8 and every other rune advances
by its terminal display width; consequently the empty string has width 0, a
single tab has width 8, and `displayWidthFrom` never moves the column
backwards from a nonnegative start. -/
theorem displayWidth_spec :
    (∀ (w : Char → Nat) (s : Str), DisplayWidth w s = widthScanSpec w 0 s) ∧
    (∀ w : Char → Nat, DisplayWidth w [] = 0) ∧
    (∀ w : Char → Nat, DisplayWidth w ['\t'] = 8) ∧
    (∀ (w : Char → Nat) (s : Str) (c : Int), 0 ≤ c → c ≤ displayWidthFrom w s c) := by
  refine ⟨fun w s => displayWidthFrom_eq_scan w s 0, fun w => rfl, fun w => rfl,
    fun w s c hc => (displayWidthFrom_ge w s c hc).1⟩

/-- Witness for C10: a concrete width function, string and start column. -/
theorem displayWidth_spec_witness :
    (0 : Int) ≤ 3 ∧ (3 : Int) ≤ displayWidthFrom (fun _ => 1) ['a', '\t'] 3 :=
  ⟨by decide, displayWidth_spec.2.2.2 (fun _ => 1) ['a', '\t'] 3 (by decide)⟩

end Diffstory
